import Mathlib

/-!
# Verification of the Robin Hood hash-table engine (`robin_hood.h`)

This file gives a shallow embedding of the hash-table engine of
`src/robin_hood.h` (namespace `ld`): the slot type `node`, the probing and
displacement routines `_find_spot`, `_insertion_helper`, `_backward_shift`,
the operations `_insert`, `_erase`, `find`, `_rehash`, `_try_to_rehash`,
the `power_of_two_growth_policy`, the `begin()` scan and the map adapter's
`at`.  Machine integers (`size_t`) are modelled by `Nat`; the two places
where the C++ unsigned arithmetic can wrap (the growth policy's
multiplication and the initial `distance = index - ideal_pos` of
`_insertion_helper`) are modelled with an explicit `% 2 ^ 64`.

The buffer of nodes is a `List` of `Node` values; a C++ loop becomes a
fuelled recursive function, with the fuel chosen from an explicit
termination measure of the loop (documented at each definition), and
`Option` results where the C++ loop would fail to terminate.
-/

set_option autoImplicit false

namespace RobinHood

/-- `size_t` modulus: the engine is compiled with 64-bit `size_t`. -/
def WORD : Nat := 2 ^ 64

/-- Wrapping subtraction `a - b` of two `size_t` values (`a, b < WORD`),
as in C++ unsigned arithmetic. -/
def subWrap (a b : Nat) : Nat := (a + WORD - b) % WORD

/-- One table slot (`ld::detail::node`): an empty/occupied flag, a cached
hash, and storage that holds a live value exactly when occupied.  An empty
node's cached hash is `0` (`kDefaultHash`, set by the default constructor
and by `clear()`), so the hash accessor of an empty node yields `0`. -/
inductive Node (V : Type) where
  | empty : Node V
  | occupied (hash : Nat) (value : V) : Node V
deriving DecidableEq

namespace Node

variable {V : Type}

/-- `node::empty()`. -/
def isEmpty : Node V → Bool
  | .empty => true
  | .occupied _ _ => false

/-- `node::hash()`; `0` for an empty node (`kDefaultHash`). -/
def hash : Node V → Nat
  | .empty => 0
  | .occupied h _ => h

/-- The `(cached hash, value)` content of a node, if occupied. -/
def pair? : Node V → Option (Nat × V)
  | .empty => none
  | .occupied h v => some (h, v)

/-- Content of a node as a multiset: empty (`0`) or a singleton. -/
def pairMS : Node V → Multiset (Nat × V)
  | .empty => 0
  | .occupied h v => {(h, v)}

/-- The key stored in a node, through the table's key selector. -/
def key? {K : Type} (ks : V → K) : Node V → Option K
  | .empty => none
  | .occupied _ v => some (ks v)

end Node

/-- The node buffer owned by the table (`detail::array<node>`); its length
is the table's capacity (`data_.size()`). -/
abbrev Buf (V : Type) := List (Node V)

variable {K V : Type}

/-- Reading slot `i` of the buffer (`data_[index]`).  All reads performed
by the embedded routines are at indices `< buf.length`; the default is
never the value actually used. -/
def nodeAt (buf : Buf V) (i : Nat) : Node V := buf.getD i .empty

/-- `hash_table::_next_index`: `(index + 1) % data_.size()`. -/
def next_index (buf : Buf V) (i : Nat) : Nat := (i + 1) % buf.length

/-- `hash_table::_hash_to_index`: `hash % max(data_.size(), 1)`. -/
def hash_to_index (buf : Buf V) (h : Nat) : Nat := h % max buf.length 1

/-- `hash_table::_distance_to_ideal_bucket`: forward circular distance
from the slot's ideal bucket to its actual index. -/
def distance_to_ideal_bucket (buf : Buf V) (i : Nat) : Nat :=
  let hashed := hash_to_index buf (nodeAt buf i).hash
  if hashed > i then buf.length - hashed + i else i - hashed

/-- Circular forward distance from `a` to `b` modulo `C` (specification
shorthand, not a routine of the source). -/
def cdist (C a b : Nat) : Nat := (b + C - a) % C

/-- The loop of `hash_table::_find_spot`, with an explicit fuel.  The C++
loop terminates within `C + 1` iterations: `distance` grows by one per
step while every slot's own probe distance is `< C`, so the
`distance > _distance_to_ideal_bucket(index)` disjunct fires at
`distance = C` at the latest; `find_spot` passes fuel `C + 1`. -/
def find_spot_loop [DecidableEq K] (ks : V → K) (buf : Buf V) (key : K) (h : Nat) :
    Nat → Nat → Nat → Nat × Bool
  | 0, index, _ => (index, false)
  | fuel + 1, index, distance =>
    if (nodeAt buf index).isEmpty = true ∨ distance_to_ideal_bucket buf index < distance then
      (index, false)
    else if (nodeAt buf index).hash = h ∧ (nodeAt buf index).key? ks = some key then
      (index, true)
    else
      find_spot_loop ks buf key h fuel (next_index buf index) (distance + 1)

/-- `hash_table::_find_spot(key, hash)`: on an empty buffer it returns
`(data_.size(), false)` (that is, `(0, false)`); otherwise it probes
forward from the ideal bucket. -/
def find_spot [DecidableEq K] (ks : V → K) (buf : Buf V) (key : K) (h : Nat) : Nat × Bool :=
  if buf.length = 0 then (buf.length, false)
  else find_spot_loop ks buf key h (buf.length + 1) (hash_to_index buf h) 0

/-- The loop of `hash_table::_insertion_helper`, with an explicit fuel.
At each occupied slot whose own probe distance is smaller than the carried
`distance`, the carried node is swapped into the slot (`distance` is first
reset to the occupant's probe distance, then incremented); the first empty
slot receives the carried node.  The loop advances one slot per iteration
and swaps never change which slots are occupied, so when the buffer has an
empty slot the loop deposits within `C` iterations (`insertion_helper`
passes fuel `C`); on a full buffer the C++ loop never terminates, which
the model renders as `none`. -/
def insertion_helper_loop : Nat → Buf V → Node V → Nat → Nat → Option (Buf V)
  | 0, _, _, _, _ => none
  | fuel + 1, buf, nd, index, distance =>
    if (nodeAt buf index).isEmpty = true then
      some (buf.set index nd)
    else if distance_to_ideal_bucket buf index < distance then
      insertion_helper_loop fuel (buf.set index nd) (nodeAt buf index)
        (next_index buf index) (distance_to_ideal_bucket buf index + 1)
    else
      insertion_helper_loop fuel buf nd (next_index buf index) (distance + 1)

/-- `hash_table::_insertion_helper(node&&, size_type)`: the starting
`distance = index - ideal_pos` is computed in `size_t` arithmetic, which
wraps around when the probe sequence wrapped past the end of the buffer. -/
def insertion_helper (buf : Buf V) (nd : Node V) (index : Nat) : Option (Buf V) :=
  insertion_helper_loop buf.length buf nd index
    (subWrap index (hash_to_index buf nd.hash))

/-- `hash_table::_insertion_helper(node&&)`: starts at the node's ideal
bucket with distance `0` (used by `_rehash`). -/
def insertion_helper_ideal (buf : Buf V) (nd : Node V) : Option (Buf V) :=
  insertion_helper_loop buf.length buf nd (hash_to_index buf nd.hash) 0

/-- Sum of the probe distances of all occupied slots (the termination
measure of the `_backward_shift` loop; not a routine of the source). -/
def sum_dist (buf : Buf V) : Nat :=
  (Finset.range buf.length).sum fun i =>
    if (nodeAt buf i).isEmpty = true then 0 else distance_to_ideal_bucket buf i

/-- The loop of `hash_table::_backward_shift`, with an explicit fuel.
While the next slot is occupied and not at its ideal bucket, its full
state moves one position back into the gap (`data_[prior] =
std::move(data_[current])` clears the source).  Each move lowers the moved
node's probe distance by one, so the sum of all probe distances strictly
decreases: fuel `sum_dist + 1` always suffices. -/
def backward_shift_loop : Nat → Buf V → Nat → Nat → Buf V
  | 0, buf, _, _ => buf
  | fuel + 1, buf, prior, current =>
    if (nodeAt buf current).isEmpty = false ∧ 0 < distance_to_ideal_bucket buf current then
      backward_shift_loop fuel ((buf.set prior (nodeAt buf current)).set current .empty)
        current (next_index buf current)
    else buf

/-- `hash_table::_backward_shift`: clears the erased slot and shifts the
following chain members backward. -/
def backward_shift (buf : Buf V) (index : Nat) : Buf V :=
  let cleared := buf.set index .empty
  backward_shift_loop (sum_dist cleared + 1) cleared index (next_index buf index)

/-- The number of occupied slots found by a full scan of the buffer. -/
def occupied_count (buf : Buf V) : Nat := buf.countP fun nd => nd.isEmpty = false

/-- The multiset of `(cached hash, value)` contents of all occupied
slots. -/
def msNodes (buf : Buf V) : Multiset (Nat × V) := (buf.filterMap Node.pair? : List (Nat × V))

/-- The multiset of keys of all occupied slots. -/
def msKeys (ks : V → K) (buf : Buf V) : Multiset K := (msNodes buf).map fun p => ks p.2

/-- The engine state: the node buffer (of length `capacity`) and the
live-entry counter `size_`.  The hash, equality, key-selector and growth
policy objects are stateless (they are parameters of the operations), and
`load_factor_` always holds the default `0.5f`: it is only ever changed by
`max_load_factor(float)`, which is outside the modelled operations, and
every `_rehash` swaps in a fresh table carrying the default again. -/
structure HashTable (V : Type) where
  data : Buf V
  size : Nat
deriving DecidableEq

/-- A buffer of `c` empty nodes (`array(size, allocator)` constructs
default `node`s). -/
def mkBuf (V : Type) (c : Nat) : Buf V := List.replicate c .empty

/-- A freshly constructed table with capacity `c` (`hash_table(capacity)`
or, at `c = 0`, the default constructor). -/
def mkTable (V : Type) (c : Nat) : HashTable V := ⟨mkBuf V c, 0⟩

/-- `ld::power_of_two_growth_policy::operator()`: returns `current * 2` in
`size_t` arithmetic (no `max(current, 1)` — the caller supplies that). -/
def power_of_two_growth_policy (current : Nat) : Nat := current * 2 % WORD

/-- Rounding an integer to a multiple of `2 ^ s`, to nearest, ties to
even (the significand `n / 2 ^ s` is kept even on a tie) — the rounding
IEEE-754 binary arithmetic performs at precision step `2 ^ s`. -/
def round_at (s : Nat) (n : Nat) : Nat :=
  if n % 2 ^ s < 2 ^ (s - 1) then n / 2 ^ s * 2 ^ s
  else if 2 ^ (s - 1) < n % 2 ^ s then (n / 2 ^ s + 1) * 2 ^ s
  else (n / 2 ^ s + n / 2 ^ s % 2) * 2 ^ s

/-- The exact value of `(float)n` for a `size_t` value `n`: `n` itself
when it fits the 24-bit significand, otherwise `n` rounded to nearest
(ties to even) at the float's precision step `2 ^ (⌊log2 n⌋ - 23)`.
Every `n < 2 ^ 64` is far inside the single-precision exponent range, so
only significand rounding occurs. -/
def float_round (n : Nat) : Nat :=
  if n < 2 ^ 24 then n else round_at (Nat.log2 n - 23) n

/-- `hash_table::_size_to_rehash`: `load_factor_ * data_.size()` truncated
to `size_type`, with the default `load_factor_ = 0.5f`.  The conversion
`(float)C` yields `float_round C`; halving a float is exact (the
significand is unchanged), and the cast back to `size_type` truncates, so
the returned threshold is `⌊float_round C / 2⌋`.  (For `C < 2 ^ 24` this
is `⌊C / 2⌋`, but for larger non-float-exact capacities the two differ.) -/
def size_to_rehash (t : HashTable V) : Nat := float_round t.data.length / 2

/-- The reinsertion loop of `hash_table::_rehash`: every occupied node of
the old buffer is fed to `_insertion_helper(node&&)` against the new
buffer, in buffer order, counting the reinserted nodes
(`rehashing_table.size_++`). -/
def reinsert_all : List (Node V) → Buf V × Nat → Option (Buf V × Nat)
  | [], acc => some acc
  | .empty :: rest, acc => reinsert_all rest acc
  | .occupied h v :: rest, (buf, n) =>
    match insertion_helper_ideal buf (.occupied h v) with
    | none => none
    | some buf2 => reinsert_all rest (buf2, n + 1)

/-- `hash_table::_rehash`: when `new_capacity > data_.size()`, build a
fresh table of that capacity, reinsert every occupied node, and swap the
whole state (buffer and size counter) into `self`; otherwise do
nothing. -/
def rehash (t : HashTable V) (new_capacity : Nat) : Option (HashTable V) :=
  if t.data.length < new_capacity then
    match reinsert_all t.data (mkBuf V new_capacity, 0) with
    | none => none
    | some (b, n) => some ⟨b, n⟩
  else some t

/-- `hash_table::_try_to_rehash`: when `size_ ≥ _size_to_rehash()`, grow
to `growth_policy(max(data_.size(), 1))` and report `true`. -/
def try_to_rehash (t : HashTable V) : Option (HashTable V × Bool) :=
  if t.size < size_to_rehash t then some (t, false)
  else
    match rehash t (power_of_two_growth_policy (max t.data.length 1)) with
    | none => none
    | some t2 => some (t2, true)

/-- `hash_table::_insert` (the funnel of every `insert`/`emplace`
overload): returns the updated table, the index the returned iterator
points to, and the boolean of the returned pair — `true` when the key was
found and its slot overwritten in place, `false` when a new entry was
placed (after `_try_to_rehash` and, if it reported `true`, a fresh
`_find_spot`). -/
def insert [DecidableEq K] (hf : K → Nat) (ks : V → K) (t : HashTable V) (v : V) :
    Option (HashTable V × Nat × Bool) :=
  let h := hf (ks v)
  let s := find_spot ks t.data (ks v) h
  if s.2 = true then
    some (⟨t.data.set s.1 (.occupied h v), t.size⟩, s.1, true)
  else
    match try_to_rehash t with
    | none => none
    | some (t1, rehashed) =>
      let s1 := if rehashed then find_spot ks t1.data (ks v) h else s
      match insertion_helper t1.data (.occupied h v) s1.1 with
      | none => none
      | some data2 => some (⟨data2, t1.size + 1⟩, s1.1, false)

/-- `hash_table::_erase(key)`: on a found key, backward-shift from its
slot and decrement `size_`, returning `1`; otherwise return `0` with the
table untouched. -/
def erase [DecidableEq K] (hf : K → Nat) (ks : V → K) (t : HashTable V) (key : K) :
    HashTable V × Nat :=
  let s := find_spot ks t.data key (hf key)
  if s.2 = true then (⟨backward_shift t.data s.1, t.size - 1⟩, 1)
  else (t, 0)

/-- `hash_table::find(key)`: the index of the slot the returned iterator
points to, `none` for the end iterator. -/
def find [DecidableEq K] (hf : K → Nat) (ks : V → K) (t : HashTable V) (key : K) : Option Nat :=
  let s := find_spot ks t.data key (hf key)
  if s.2 = true then some s.1 else none

/-- Dereferencing the iterator produced by `find`: the stored value. -/
def findValue [DecidableEq K] (hf : K → Nat) (ks : V → K) (t : HashTable V) (key : K) :
    Option V :=
  match find hf ks t key with
  | none => none
  | some i =>
    match nodeAt t.data i with
    | .empty => none
    | .occupied _ v => some v

/-- Whether some occupied slot of the buffer holds `key`. -/
def present (ks : V → K) (buf : Buf V) (key : K) : Prop :=
  ∃ i, i < buf.length ∧ (nodeAt buf i).key? ks = some key

/-- The scan of `hash_table::begin()` — `while (current->empty() &&
current != last) ++current;` — returning the final position together with
the list of buffer indices the condition dereferenced (`current->empty()`
is evaluated before `current != last`, so the position `current == last`,
one past the buffer, is itself dereferenced whenever the scan reaches it).
The fuel `buf.length + 1` covers every position from `0` to `last`. -/
def begin_scan_loop (buf : Buf V) : Nat → Nat → Nat × List Nat
  | 0, current => (current, [current])
  | fuel + 1, current =>
    if (nodeAt buf current).isEmpty = false then (current, [current])
    else if current = buf.length then (current, [current])
    else
      let r := begin_scan_loop buf fuel (current + 1)
      (r.1, current :: r.2)

/-- `hash_table::begin()`: scan from the first position. -/
def begin_scan (buf : Buf V) : Nat × List Nat := begin_scan_loop buf (buf.length + 1) 0

/-- `unordered_map::at(key)` is `return hash_table_.find(key)->second;`
with no absence check: the buffer index of the node the returned iterator
dereferences.  When `find` misses, the iterator is `end()` and the
dereferenced position is `data_.size()` — one past the buffer. -/
def map_at_access_index [DecidableEq K] (hf : K → Nat) (ks : V → K) (t : HashTable V)
    (key : K) : Nat :=
  match find hf ks t key with
  | some i => i
  | none => t.data.length

/-- The index one back from `i` on the circular buffer (specification
shorthand for stating the chain invariant; not a routine of the source). -/
def prev_index (buf : Buf V) (i : Nat) : Nat := (i + buf.length - 1) % buf.length

/-- The Robin Hood step invariant on a buffer: an occupied slot that is
not at its ideal bucket has an occupied predecessor whose probe distance
is smaller by at most one. -/
def ChainInv (buf : Buf V) : Prop :=
  ∀ i, i < buf.length → (nodeAt buf i).isEmpty = false →
    0 < distance_to_ideal_bucket buf i →
    (nodeAt buf (prev_index buf i)).isEmpty = false ∧
      distance_to_ideal_bucket buf i ≤ distance_to_ideal_bucket buf (prev_index buf i) + 1

/-- The step invariant with one slot exempted (the slot just ahead of the
travelling gap of `_backward_shift`). -/
def ChainInvExcept (buf : Buf V) (x : Nat) : Prop :=
  ∀ i, i < buf.length → i ≠ x → (nodeAt buf i).isEmpty = false →
    0 < distance_to_ideal_bucket buf i →
    (nodeAt buf (prev_index buf i)).isEmpty = false ∧
      distance_to_ideal_bucket buf i ≤ distance_to_ideal_bucket buf (prev_index buf i) + 1

/-- Well-formedness of a table state.  `chain` is the Robin Hood step
invariant: an occupied slot that is not at its ideal bucket has an
occupied predecessor whose probe distance is at least one smaller. -/
structure WF [DecidableEq K] (hf : K → Nat) (ks : V → K) (t : HashTable V) : Prop where
  cap_lt : t.data.length < WORD
  size_eq : t.size = occupied_count t.data
  hash_ok : ∀ p ∈ msNodes t.data, p.1 = hf (ks p.2)
  keys_nodup : (msKeys ks t.data).Nodup
  chain : ∀ i, i < t.data.length → (nodeAt t.data i).isEmpty = false →
    0 < distance_to_ideal_bucket t.data i →
    (nodeAt t.data (prev_index t.data i)).isEmpty = false ∧
      distance_to_ideal_bucket t.data i ≤
        distance_to_ideal_bucket t.data (prev_index t.data i) + 1
  lf : 2 * t.size ≤ float_round t.data.length ∨ 2 ^ 63 ≤ t.data.length

/-- Table states reachable from a freshly constructed table by `insert`
and `erase`.  The initial capacity is a `size_t` value. -/
inductive Reach [DecidableEq K] (hf : K → Nat) (ks : V → K) : HashTable V → Prop where
  | init (c : Nat) (hc : c < WORD) : Reach hf ks (mkTable V c)
  | insertStep {t t2 : HashTable V} {i : Nat} {b : Bool} (v : V) (ht : Reach hf ks t)
      (hstep : insert hf ks t v = some (t2, i, b)) : Reach hf ks t2
  | eraseStep {t : HashTable V} (key : K) (ht : Reach hf ks t) :
      Reach hf ks ((erase hf ks t key).1)

end RobinHood

/-! ## Basic lemmas: buffer reads and writes -/

namespace RobinHood

variable {K V : Type}

theorem nodeAt_nil (i : Nat) : nodeAt ([] : Buf V) i = .empty := rfl

theorem nodeAt_cons_zero (nd : Node V) (l : Buf V) : nodeAt (nd :: l) 0 = nd := rfl

theorem nodeAt_cons_succ (nd : Node V) (l : Buf V) (i : Nat) :
    nodeAt (nd :: l) (i + 1) = nodeAt l i := rfl

theorem nodeAt_set_self {buf : Buf V} {i : Nat} (nd : Node V) (h : i < buf.length) :
    nodeAt (buf.set i nd) i = nd := by
  induction buf generalizing i with
  | nil => simp at h
  | cons hd tl ih =>
    cases i with
    | zero => rfl
    | succ j =>
      simp only [List.set_cons_succ, nodeAt_cons_succ]
      exact ih (by simpa using h)

theorem nodeAt_set_ne {buf : Buf V} {i j : Nat} (nd : Node V) (h : i ≠ j) :
    nodeAt (buf.set i nd) j = nodeAt buf j := by
  induction buf generalizing i j with
  | nil => rfl
  | cons hd tl ih =>
    cases i with
    | zero =>
      cases j with
      | zero => exact absurd rfl h
      | succ j' => rfl
    | succ i' =>
      cases j with
      | zero => rfl
      | succ j' =>
        simp only [List.set_cons_succ, nodeAt_cons_succ]
        exact ih (fun e => h (by rw [e]))

theorem nodeAt_replicate (c i : Nat) : nodeAt (mkBuf V c) i = .empty := by
  unfold mkBuf
  induction c generalizing i with
  | zero => rfl
  | succ n ih =>
    cases i with
    | zero => rfl
    | succ j => simpa [List.replicate_succ, nodeAt_cons_succ] using ih j

theorem length_mkBuf (c : Nat) : (mkBuf V c).length = c := by
  simp [mkBuf]

/-! ## Basic lemmas: index arithmetic -/

theorem hash_to_index_lt {buf : Buf V} (hC : 0 < buf.length) (h : Nat) :
    hash_to_index buf h < buf.length := by
  unfold hash_to_index
  rw [Nat.max_eq_left hC]
  exact Nat.mod_lt _ hC

theorem hash_to_index_le {buf : Buf V} (h : Nat) :
    hash_to_index buf h ≤ buf.length := by
  rcases Nat.eq_zero_or_pos buf.length with h0 | h0
  · unfold hash_to_index
    rw [h0]
    simp [Nat.mod_one]
  · exact Nat.le_of_lt (hash_to_index_lt h0 h)

theorem next_index_lt {buf : Buf V} (hC : 0 < buf.length) (i : Nat) :
    next_index buf i < buf.length := Nat.mod_lt _ hC

theorem cdist_lt {C : Nat} (hC : 0 < C) (a b : Nat) : cdist C a b < C := Nat.mod_lt _ hC

theorem add_cdist {C a b : Nat} (ha : a ≤ C) (hb : b < C) : (a + cdist C a b) % C = b := by
  unfold cdist
  rw [Nat.add_mod_mod]
  have h2 : a + (b + C - a) = b + C := by omega
  rw [h2, Nat.add_mod_right]
  exact Nat.mod_eq_of_lt hb

theorem cdist_add {C a : Nat} (ha : a ≤ C) (d : Nat) : cdist C a ((a + d) % C) = d % C := by
  unfold cdist
  rcases Nat.eq_zero_or_pos C with h0 | h0
  · subst h0
    simp [Nat.mod_zero]
  · have h1 : (a + d) % C + C - a = (a + d) % C + (C - a) := by omega
    rw [h1, Nat.mod_add_mod]
    have h3 : a + d + (C - a) = d + C := by omega
    rw [h3]
    exact Nat.add_mod_right d C

theorem pos_step {C b t : Nat} : ((b + t) % C + 1) % C = (b + (t + 1)) % C := by
  rw [Nat.mod_add_mod]
  rw [Nat.add_assoc]

theorem prev_index_pos {buf : Buf V} (hC : 0 < buf.length) (x : Nat) :
    prev_index buf ((x + 1) % buf.length) = x % buf.length := by
  unfold prev_index
  set C := buf.length with hCdef
  have h1 : (x + 1) % C + C - 1 = (x + 1) % C + (C - 1) := by omega
  rw [h1, Nat.mod_add_mod]
  have h2 : x + 1 + (C - 1) = x + C := by omega
  rw [h2]
  exact Nat.add_mod_right x C

theorem dist_eq_cdist {buf : Buf V} {i : Nat} (hi : i < buf.length) :
    distance_to_ideal_bucket buf i =
      cdist buf.length (hash_to_index buf (nodeAt buf i).hash) i := by
  have hC : 0 < buf.length := Nat.lt_of_le_of_lt (Nat.zero_le i) hi
  unfold distance_to_ideal_bucket cdist
  set hashed := hash_to_index buf (nodeAt buf i).hash with hh
  have hlt : hashed < buf.length := hash_to_index_lt hC _
  by_cases hcmp : hashed > i
  · rw [if_pos hcmp]
    have he : i + buf.length - hashed = buf.length - hashed + i := by omega
    rw [he, Nat.mod_eq_of_lt (by omega)]
  · rw [if_neg hcmp]
    have he : i + buf.length - hashed = i - hashed + buf.length := by omega
    rw [he, Nat.add_mod_right, Nat.mod_eq_of_lt (by omega)]

theorem dist_lt {buf : Buf V} {i : Nat} (hi : i < buf.length) :
    distance_to_ideal_bucket buf i < buf.length := by
  have hC : 0 < buf.length := Nat.lt_of_le_of_lt (Nat.zero_le i) hi
  rw [dist_eq_cdist hi]
  exact cdist_lt hC _ _

theorem dist_spec {buf : Buf V} {i : Nat} (hi : i < buf.length) :
    (hash_to_index buf (nodeAt buf i).hash + distance_to_ideal_bucket buf i) % buf.length
      = i := by
  rw [dist_eq_cdist hi]
  exact add_cdist (hash_to_index_le _) hi

/-- If slot `i = (b + d) % C` holds a node whose ideal bucket is `b` and
`d < C`, its probe distance is `d`. -/
theorem dist_of_pos {buf : Buf V} {b d : Nat}
    (hb : b = hash_to_index buf (nodeAt buf ((b + d) % buf.length)).hash)
    (hd : d < buf.length) :
    distance_to_ideal_bucket buf ((b + d) % buf.length) = d := by
  have hC : 0 < buf.length := Nat.lt_of_le_of_lt (Nat.zero_le d) hd
  have hble : b ≤ buf.length := by
    rw [hb]
    exact hash_to_index_le _
  rw [dist_eq_cdist (Nat.mod_lt _ hC), ← hb, cdist_add hble]
  exact Nat.mod_eq_of_lt hd

end RobinHood

/-! ## Content of a buffer as a multiset -/

namespace RobinHood

variable {K V : Type}

theorem msNodes_nil : msNodes ([] : Buf V) = 0 := rfl

theorem msNodes_cons (nd : Node V) (l : Buf V) :
    msNodes (nd :: l) = nd.pairMS + msNodes l := by
  cases nd with
  | empty => simp [msNodes, Node.pair?, Node.pairMS, List.filterMap_cons]
  | occupied h v =>
    simp only [msNodes, Node.pair?, Node.pairMS, List.filterMap_cons]
    rw [← Multiset.cons_coe, ← Multiset.singleton_add]

theorem msNodes_set {buf : Buf V} {i : Nat} (nd : Node V) (hi : i < buf.length) :
    msNodes (buf.set i nd) + (nodeAt buf i).pairMS = msNodes buf + nd.pairMS := by
  induction buf generalizing i with
  | nil => simp at hi
  | cons hd tl ih =>
    cases i with
    | zero =>
      simp only [List.set_cons_zero, msNodes_cons, nodeAt_cons_zero]
      simp [add_comm, add_left_comm, add_assoc]
    | succ j =>
      simp only [List.set_cons_succ, msNodes_cons, nodeAt_cons_succ]
      have hj : j < tl.length := by simpa using hi
      rw [add_assoc, ih hj, ← add_assoc]

theorem card_msNodes (buf : Buf V) : Multiset.card (msNodes buf) = occupied_count buf := by
  induction buf with
  | nil => rfl
  | cons hd tl ih =>
    rw [msNodes_cons, Multiset.card_add, ih]
    cases hd with
    | empty => simp [Node.pairMS, occupied_count, List.countP_cons, Node.isEmpty]
    | occupied h v =>
      simp only [Node.pairMS, Multiset.card_singleton, occupied_count, List.countP_cons,
        Node.isEmpty]
      simp [occupied_count]
      omega

theorem occupied_count_le (buf : Buf V) : occupied_count buf ≤ buf.length :=
  List.countP_le_length _

theorem exists_empty_of_count_lt {buf : Buf V} (h : occupied_count buf < buf.length) :
    ∃ e, e < buf.length ∧ (nodeAt buf e).isEmpty = true := by
  induction buf with
  | nil => simp at h
  | cons hd tl ih =>
    cases hhd : hd.isEmpty with
    | true => exact ⟨0, by simp, by simpa [nodeAt_cons_zero] using hhd⟩
    | false =>
      have hcount : occupied_count (hd :: tl) = occupied_count tl + 1 := by
        simp [occupied_count, List.countP_cons, hhd]
      have htl : occupied_count tl < tl.length := by
        rw [hcount] at h
        simpa using h
      obtain ⟨e, he, hee⟩ := ih htl
      exact ⟨e + 1, by simpa using he, by simpa [nodeAt_cons_succ] using hee⟩

theorem mem_msNodes {buf : Buf V} {p : Nat × V} :
    p ∈ msNodes buf ↔ ∃ i, i < buf.length ∧ nodeAt buf i = .occupied p.1 p.2 := by
  induction buf with
  | nil =>
    simp [msNodes]
  | cons hd tl ih =>
    rw [msNodes_cons]
    constructor
    · intro hp
      rcases Multiset.mem_add.1 hp with hp | hp
      · refine ⟨0, by simp, ?_⟩
        cases hd with
        | empty => simp [Node.pairMS] at hp
        | occupied h v =>
          simp only [Node.pairMS, Multiset.mem_singleton] at hp
          rw [nodeAt_cons_zero, hp]
      · obtain ⟨i, hi, he⟩ := ih.1 hp
        exact ⟨i + 1, by simpa using hi, by simpa [nodeAt_cons_succ] using he⟩
    · rintro ⟨i, hi, he⟩
      cases i with
      | zero =>
        rw [nodeAt_cons_zero] at he
        apply Multiset.mem_add.2
        left
        rw [he]
        simp [Node.pairMS]
      | succ j =>
        rw [nodeAt_cons_succ] at he
        exact Multiset.mem_add.2 (Or.inr (ih.2 ⟨j, by simpa using hi, he⟩))

theorem key_mem_of_slot {ks : V → K} {buf : Buf V} {i : Nat} {h : Nat} {v : V}
    (hi : i < buf.length) (he : nodeAt buf i = .occupied h v) :
    ks v ∈ msKeys ks buf := by
  apply Multiset.mem_map.2
  exact ⟨(h, v), mem_msNodes.2 ⟨i, hi, he⟩, rfl⟩

theorem msKeys_cons (ks : V → K) (nd : Node V) (l : Buf V) :
    msKeys ks (nd :: l) = Multiset.map (fun p => ks p.2) nd.pairMS + msKeys ks l := by
  rw [msKeys, msNodes_cons, Multiset.map_add]
  rfl

theorem keys_nodup_aux {ks : V → K} :
    ∀ (buf : Buf V) (i j : Nat) (h1 h2 : Nat) (v1 v2 : V), i < j → j < buf.length →
    nodeAt buf i = .occupied h1 v1 → nodeAt buf j = .occupied h2 v2 → ks v1 = ks v2 →
    ¬ (msKeys ks buf).Nodup := by
  intro buf
  induction buf with
  | nil => intro i j h1 h2 v1 v2 _ hj; simp at hj
  | cons hd tl ih =>
    intro i j h1 h2 v1 v2 hij hj e1 e2 hk hnd
    cases i with
    | zero =>
      rw [nodeAt_cons_zero] at e1
      obtain ⟨j', rfl⟩ : ∃ j', j = j' + 1 := ⟨j - 1, by omega⟩
      rw [nodeAt_cons_succ] at e2
      rw [e1, msKeys_cons] at hnd
      simp only [Node.pairMS, Multiset.map_singleton, Multiset.singleton_add] at hnd
      have hmem : ks v2 ∈ msKeys ks tl := key_mem_of_slot (by simpa using hj) e2
      rw [← hk] at hmem
      exact (Multiset.nodup_cons.1 hnd).1 hmem
    | succ i' =>
      obtain ⟨j', rfl⟩ : ∃ j', j = j' + 1 := ⟨j - 1, by omega⟩
      rw [nodeAt_cons_succ] at e1 e2
      have hndtl : (msKeys ks tl).Nodup := by
        rw [msKeys_cons] at hnd
        cases hd with
        | empty => simpa [Node.pairMS] using hnd
        | occupied h v =>
          simp only [Node.pairMS, Multiset.map_singleton, Multiset.singleton_add] at hnd
          exact (Multiset.nodup_cons.1 hnd).2
      exact ih i' j' h1 h2 v1 v2 (by omega) (by simpa using hj) e1 e2 hk hndtl

/-- Under a duplicate-free key multiset, a key determines its slot. -/
theorem eq_of_keys_nodup {ks : V → K} {buf : Buf V} (hnd : (msKeys ks buf).Nodup)
    {i j : Nat} {h1 h2 : Nat} {v1 v2 : V} (hi : i < buf.length) (hj : j < buf.length)
    (e1 : nodeAt buf i = .occupied h1 v1) (e2 : nodeAt buf j = .occupied h2 v2)
    (hk : ks v1 = ks v2) : i = j := by
  rcases Nat.lt_trichotomy i j with hlt | heq | hgt
  · exact absurd hnd (keys_nodup_aux buf i j h1 h2 v1 v2 hlt hj e1 e2 hk)
  · exact heq
  · exact absurd hnd (keys_nodup_aux buf j i h2 h1 v2 v1 hgt hi e2 e1 hk.symm)

theorem msNodes_mkBuf (c : Nat) : msNodes (mkBuf V c) = 0 := by
  unfold mkBuf
  induction c with
  | zero => rfl
  | succ n ih => rw [List.replicate_succ, msNodes_cons, ih]; rfl

theorem occupied_count_mkBuf (c : Nat) : occupied_count (mkBuf V c) = 0 := by
  have := card_msNodes (mkBuf V c)
  rw [msNodes_mkBuf] at this
  simpa using this.symm

end RobinHood

/-! ## Characterisation of `find_spot` -/

namespace RobinHood

variable {K V : Type}

/-- A successful probe stops at an in-range slot that holds the searched
hash and a key equal to the searched key. -/
theorem find_spot_loop_found [DecidableEq K] {ks : V → K} {buf : Buf V} {key : K} {h : Nat} :
    ∀ {fuel index distance j : Nat}, 0 < buf.length → index < buf.length →
    find_spot_loop ks buf key h fuel index distance = (j, true) →
    j < buf.length ∧ ∃ v, nodeAt buf j = .occupied h v ∧ ks v = key := by
  intro fuel
  induction fuel with
  | zero =>
    intro index distance j _ _ hres
    simp [find_spot_loop] at hres
  | succ n ih =>
    intro index distance j hC hidx hres
    rw [find_spot_loop] at hres
    by_cases hc1 : (nodeAt buf index).isEmpty = true ∨
        distance_to_ideal_bucket buf index < distance
    · rw [if_pos hc1] at hres
      simp at hres
    · rw [if_neg hc1] at hres
      by_cases hc2 : (nodeAt buf index).hash = h ∧ (nodeAt buf index).key? ks = some key
      · rw [if_pos hc2] at hres
        have hj : index = j := congrArg Prod.fst hres
        subst hj
        refine ⟨hidx, ?_⟩
        push_neg at hc1
        cases hnd : nodeAt buf index with
        | empty => rw [hnd] at hc1; simp [Node.isEmpty] at hc1
        | occupied h2 v =>
          rw [hnd] at hc2
          obtain ⟨hh, hkey⟩ := hc2
          simp only [Node.hash] at hh
          simp only [Node.key?, Option.some_inj] at hkey
          subst hh
          exact ⟨v, rfl, hkey⟩
      · rw [if_neg hc2] at hres
        exact ih hC (next_index_lt hC index) hres

/-- `_find_spot` reports *found* only at a matching, in-range slot. -/
theorem find_spot_found [DecidableEq K] {ks : V → K} {buf : Buf V} {key : K} {h : Nat}
    {j : Nat} (hres : find_spot ks buf key h = (j, true)) :
    j < buf.length ∧ ∃ v, nodeAt buf j = .occupied h v ∧ ks v = key := by
  unfold find_spot at hres
  by_cases hC : buf.length = 0
  · rw [if_pos hC] at hres
    simp at hres
  · rw [if_neg hC] at hres
    have hC' : 0 < buf.length := Nat.pos_of_ne_zero hC
    exact find_spot_loop_found hC' (hash_to_index_lt hC' h) hres

/-- A *found* answer exhibits the key as present. -/
theorem present_of_find_spot_found [DecidableEq K] {ks : V → K} {buf : Buf V} {key : K}
    {h j : Nat} (hres : find_spot ks buf key h = (j, true)) : present ks buf key := by
  obtain ⟨hj, v, he, hv⟩ := find_spot_found hres
  exact ⟨j, hj, by rw [he, Node.key?, hv]⟩

/-- Characterisation of an unsuccessful probe, assuming an empty slot `m`
steps ahead of the ideal bucket: the probe stops after `e ≤ m` steps,
every slot it passed is occupied with probe distance at least the
scan distance, and at the stop slot the stop condition holds. -/
theorem find_spot_loop_not_found [DecidableEq K] {ks : V → K} {buf : Buf V} {key : K}
    {h : Nat} {b m : Nat} (hb : b ≤ buf.length) (hm : m < buf.length)
    (hempty : (nodeAt buf ((b + m) % buf.length)).isEmpty = true) :
    ∀ {fuel d j : Nat}, d ≤ m → m - d < fuel →
    find_spot_loop ks buf key h fuel ((b + d) % buf.length) d = (j, false) →
    ∃ e, d ≤ e ∧ e ≤ m ∧ j = (b + e) % buf.length ∧
      (∀ u, d ≤ u → u < e → (nodeAt buf ((b + u) % buf.length)).isEmpty = false ∧
        u ≤ distance_to_ideal_bucket buf ((b + u) % buf.length)) ∧
      ((nodeAt buf j).isEmpty = true ∨ distance_to_ideal_bucket buf j < e) := by
  intro fuel
  induction fuel with
  | zero =>
    intro d j _ hfuel
    omega
  | succ n ih =>
    intro d j hd hfuel hres
    rw [find_spot_loop] at hres
    by_cases hc1 : (nodeAt buf ((b + d) % buf.length)).isEmpty = true ∨
        distance_to_ideal_bucket buf ((b + d) % buf.length) < d
    · rw [if_pos hc1] at hres
      have hj : j = (b + d) % buf.length := (congrArg Prod.fst hres).symm
      exact ⟨d, Nat.le_refl d, hd, hj,
        fun u h1 h2 => absurd (Nat.lt_of_le_of_lt h1 h2) (Nat.lt_irrefl d),
        by rw [hj]; exact hc1⟩
    · rw [if_neg hc1] at hres
      by_cases hc2 : (nodeAt buf ((b + d) % buf.length)).hash = h ∧
          (nodeAt buf ((b + d) % buf.length)).key? ks = some key
      · rw [if_pos hc2] at hres
        simp at hres
      · rw [if_neg hc2] at hres
        push_neg at hc1
        have hdm : d ≠ m := by
          intro he
          rw [he] at hc1
          exact absurd hempty (by simp [hc1.1])
        have hd1 : d + 1 ≤ m := by omega
        have hnext : next_index buf ((b + d) % buf.length) = (b + (d + 1)) % buf.length :=
          pos_step
        rw [hnext] at hres
        obtain ⟨e, he1, he2, he3, he4, he5⟩ := ih hd1 (by omega) hres
        refine ⟨e, by omega, he2, he3, ?_, he5⟩
        intro u h1 h2
        by_cases hu : u = d
        · subst hu
          exact ⟨by simpa using hc1.1, hc1.2⟩
        · exact he4 u (by omega) h2

/-- Characterisation of `_find_spot` on a *not found* answer when the
buffer is nonempty and has an empty slot `m` steps ahead of the ideal
bucket of `h`. -/
theorem find_spot_not_found [DecidableEq K] {ks : V → K} {buf : Buf V} {key : K}
    {h : Nat} {m j : Nat} (hC : 0 < buf.length) (hm : m < buf.length)
    (hempty : (nodeAt buf ((hash_to_index buf h + m) % buf.length)).isEmpty = true)
    (hres : find_spot ks buf key h = (j, false)) :
    ∃ e, e ≤ m ∧ j = (hash_to_index buf h + e) % buf.length ∧
      (∀ u, u < e → (nodeAt buf ((hash_to_index buf h + u) % buf.length)).isEmpty = false ∧
        u ≤ distance_to_ideal_bucket buf ((hash_to_index buf h + u) % buf.length)) ∧
      ((nodeAt buf j).isEmpty = true ∨ distance_to_ideal_bucket buf j < e) := by
  unfold find_spot at hres
  rw [if_neg (Nat.pos_iff_ne_zero.1 hC)] at hres
  have hb0 : (hash_to_index buf h + 0) % buf.length = hash_to_index buf h := by
    rw [Nat.add_zero]
    exact Nat.mod_eq_of_lt (hash_to_index_lt hC h)
  rw [← hb0] at hres
  obtain ⟨e, _, he2, he3, he4, he5⟩ :=
    find_spot_loop_not_found (hash_to_index_le h) hm hempty (Nat.zero_le m) (by omega) hres
  exact ⟨e, he2, he3, fun u hu => he4 u (Nat.zero_le u) hu, he5⟩

end RobinHood

/-! ## The chain invariant makes every present key findable -/

namespace RobinHood

variable {K V : Type}

/-- Walking back from an occupied slot to its ideal bucket: every slot on
the way is occupied, with probe distance at least its offset from the
ideal bucket. -/
theorem chain_walk {buf : Buf V} (hchain : ChainInv buf)
    {j : Nat} (hj : j < buf.length) (hocc : (nodeAt buf j).isEmpty = false) :
    ∀ u, u ≤ distance_to_ideal_bucket buf j →
      (nodeAt buf ((hash_to_index buf (nodeAt buf j).hash + u) % buf.length)).isEmpty
          = false ∧
        u ≤ distance_to_ideal_bucket buf
          ((hash_to_index buf (nodeAt buf j).hash + u) % buf.length) := by
  have hC : 0 < buf.length := Nat.lt_of_le_of_lt (Nat.zero_le j) hj
  set b := hash_to_index buf (nodeAt buf j).hash with hbdef
  set D := distance_to_ideal_bucket buf j with hDdef
  have hbase : (b + D) % buf.length = j := dist_spec hj
  have aux : ∀ d, d ≤ D → (nodeAt buf ((b + (D - d)) % buf.length)).isEmpty = false ∧
      D - d ≤ distance_to_ideal_bucket buf ((b + (D - d)) % buf.length) := by
    intro d
    induction d with
    | zero =>
      intro _
      rw [Nat.sub_zero, hbase]
      exact ⟨hocc, Nat.le_refl D⟩
    | succ d ih =>
      intro hdD
      obtain ⟨hocc2, hdist2⟩ := ih (by omega)
      have hpos : 0 < distance_to_ideal_bucket buf ((b + (D - d)) % buf.length) := by omega
      have hlt2 : (b + (D - d)) % buf.length < buf.length := Nat.mod_lt _ hC
      obtain ⟨hpo, hpd⟩ := hchain _ hlt2 hocc2 hpos
      have hu : D - d = (D - (d + 1)) + 1 := by omega
      have hprev : prev_index buf ((b + (D - d)) % buf.length)
          = (b + (D - (d + 1))) % buf.length := by
        rw [hu, ← Nat.add_assoc]
        exact prev_index_pos hC _
      rw [hprev] at hpo hpd
      refine ⟨hpo, ?_⟩
      omega
  intro u hu
  have h1 := aux (D - u) (by omega)
  rw [show D - (D - u) = u from by omega] at h1
  exact h1

/-- Under the chain invariant, duplicate-free keys and correct cached
hashes, `_find_spot` locates every stored entry (at its exact slot). -/
theorem find_spot_present_found [DecidableEq K] {ks : V → K} {buf : Buf V}
    (hchain : ChainInv buf) (hnodup : (msKeys ks buf).Nodup)
    {j h : Nat} {v : V} (hj : j < buf.length) (hjn : nodeAt buf j = .occupied h v) :
    find_spot ks buf (ks v) h = (j, true) := by
  have hC : 0 < buf.length := Nat.lt_of_le_of_lt (Nat.zero_le j) hj
  have hocc : (nodeAt buf j).isEmpty = false := by rw [hjn]; rfl
  have hhash : (nodeAt buf j).hash = h := by rw [hjn]; rfl
  set b := hash_to_index buf h with hbdef
  set D := distance_to_ideal_bucket buf j with hDdef
  have hwalk := chain_walk hchain hj hocc
  rw [hhash] at hwalk
  have hbase : (b + D) % buf.length = j := by
    have := dist_spec hj
    rw [hhash] at this
    exact this
  have hD : D < buf.length := dist_lt hj
  have aux2 : ∀ m u fuel, u + m = D → m < fuel →
      find_spot_loop ks buf (ks v) h fuel ((b + u) % buf.length) u = (j, true) := by
    intro m
    induction m with
    | zero =>
      intro u fuel hum hfuel
      have hu : u = D := by omega
      subst hu
      cases fuel with
      | zero => omega
      | succ f =>
        rw [find_spot_loop, hbase]
        rw [if_neg (by rw [hjn]; simp [Node.isEmpty, ← hDdef])]
        rw [if_pos (by rw [hjn]; exact ⟨rfl, rfl⟩)]
    | succ m ih =>
      intro u fuel hum hfuel
      have huD : u < D := by omega
      cases fuel with
      | zero => omega
      | succ f =>
        obtain ⟨ho, hd⟩ := hwalk u (by omega)
        rw [← hbdef] at ho hd
        rw [find_spot_loop]
        rw [if_neg (by rw [ho]; simp; omega)]
        have hnotmatch : ¬ ((nodeAt buf ((b + u) % buf.length)).hash = h ∧
            (nodeAt buf ((b + u) % buf.length)).key? ks = some (ks v)) := by
          rintro ⟨hh2, hk2⟩
          cases hnd : nodeAt buf ((b + u) % buf.length) with
          | empty => rw [hnd] at ho; simp [Node.isEmpty] at ho
          | occupied h2 v2 =>
            rw [hnd] at hh2 hk2
            simp only [Node.key?, Option.some_inj] at hk2
            have heq : (b + u) % buf.length = j :=
              eq_of_keys_nodup hnodup (Nat.mod_lt _ hC) hj hnd hjn hk2
            have hu2 : u % buf.length = u := Nat.mod_eq_of_lt (by omega)
            have hcd : cdist buf.length b ((b + u) % buf.length) = u := by
              rw [cdist_add (le_of_eq_of_le hbdef (hash_to_index_le h)), hu2]
            rw [heq, ← hbase] at hcd
            rw [cdist_add (le_of_eq_of_le hbdef (hash_to_index_le h)),
              Nat.mod_eq_of_lt hD] at hcd
            omega
        rw [if_neg hnotmatch]
        have hnext : next_index buf ((b + u) % buf.length)
            = (b + (u + 1)) % buf.length := pos_step
        rw [hnext]
        exact ih (u + 1) f (by omega) (by omega)
  unfold find_spot
  rw [if_neg (Nat.pos_iff_ne_zero.1 hC)]
  have hb0 : (b + 0) % buf.length = b := by
    rw [Nat.add_zero]
    exact Nat.mod_eq_of_lt (hash_to_index_lt hC h)
  have := aux2 D 0 (buf.length + 1) (by omega) (by omega)
  rw [hb0] at this
  exact this

end RobinHood

/-! ## Stability of the index maps under a single slot write -/

namespace RobinHood

variable {K V : Type}

theorem length_set (buf : Buf V) (i : Nat) (x : Node V) :
    (buf.set i x).length = buf.length := by simp

theorem hash_to_index_set (buf : Buf V) (i : Nat) (x : Node V) (h : Nat) :
    hash_to_index (buf.set i x) h = hash_to_index buf h := by
  simp [hash_to_index, length_set]

theorem next_index_set (buf : Buf V) (i : Nat) (x : Node V) (j : Nat) :
    next_index (buf.set i x) j = next_index buf j := by
  simp [next_index, length_set]

theorem prev_index_set (buf : Buf V) (i : Nat) (x : Node V) (j : Nat) :
    prev_index (buf.set i x) j = prev_index buf j := by
  simp [prev_index, length_set]

theorem dist_set_ne {buf : Buf V} {i j : Nat} (x : Node V) (hne : i ≠ j) :
    distance_to_ideal_bucket (buf.set i x) j = distance_to_ideal_bucket buf j := by
  simp [distance_to_ideal_bucket, nodeAt_set_ne x hne, hash_to_index_set, length_set]

theorem dist_set_self {buf : Buf V} {x : Node V} {index distance : Nat}
    (hC : 0 < buf.length)
    (hidx : index = (hash_to_index buf x.hash + distance) % buf.length)
    (hdlt : distance < buf.length) :
    distance_to_ideal_bucket (buf.set index x) index = distance := by
  have hixlt : index < buf.length := by
    rw [hidx]
    exact Nat.mod_lt _ hC
  have hixlt2 : index < (buf.set index x).length := by rwa [length_set]
  rw [dist_eq_cdist hixlt2, nodeAt_set_self x hixlt, hash_to_index_set, length_set, hidx,
    cdist_add (hash_to_index_le _)]
  exact Nat.mod_eq_of_lt hdlt

/-- Positions `s` and `0` steps ahead of `index` coincide only if `s` is a
multiple of the capacity. -/
theorem ahead_ne {C index s : Nat} (hidx : index < C) (hs : 0 < s) (hsC : s < C) :
    (index + s) % C ≠ index := by
  intro he
  have hC : 0 < C := Nat.lt_of_le_of_lt (Nat.zero_le index) hidx
  have h1 : cdist C index ((index + s) % C) = s % C := cdist_add (Nat.le_of_lt hidx) s
  rw [he] at h1
  unfold cdist at h1
  have h2 : (index + C - index) % C = 0 := by
    rw [show index + C - index = C from by omega]
    exact Nat.mod_self C
  rw [h2] at h1
  rw [Nat.mod_eq_of_lt hsC] at h1
  omega

/-- If a slot is its own predecessor on the circular buffer, the capacity
is `1`. -/
theorem prev_index_eq_self {buf : Buf V} {j : Nat} (hj : j < buf.length)
    (he : prev_index buf j = j) : buf.length = 1 := by
  by_contra hne1
  have h2C : 2 ≤ buf.length := by omega
  unfold prev_index at he
  have h3 : j + buf.length - 1 = j + (buf.length - 1) := by omega
  rw [h3] at he
  exact ahead_ne hj (by omega) (by omega) he

/-- Depositing the carried node into an empty slot preserves the chain
invariant, provided the carried clause holds for its probe distance. -/
theorem insertion_deposit_chain {buf : Buf V} {nd : Node V} {index distance : Nat}
    (hC : 0 < buf.length)
    (hchain : ChainInv buf)
    (hidx : index = (hash_to_index buf nd.hash + distance) % buf.length)
    (hdlt : distance < buf.length)
    (hempty : (nodeAt buf index).isEmpty = true)
    (hcarry : 0 < distance →
      (nodeAt buf (prev_index buf index)).isEmpty = false ∧
        distance ≤ distance_to_ideal_bucket buf (prev_index buf index) + 1) :
    ChainInv (buf.set index nd) := by
  have hixlt : index < buf.length := by
    rw [hidx]
    exact Nat.mod_lt _ hC
  intro j hj hjo hjd
  rw [length_set] at hj
  by_cases hji : j = index
  · subst hji
    rw [dist_set_self hC hidx hdlt] at hjd ⊢
    obtain ⟨hpo, hpd⟩ := hcarry hjd
    have hpne : j ≠ prev_index buf j := by
      intro he
      have hC1 : buf.length = 1 := prev_index_eq_self hj he.symm
      omega
    rw [prev_index_set, nodeAt_set_ne nd hpne, dist_set_ne nd hpne]
    exact ⟨hpo, hpd⟩
  · rw [nodeAt_set_ne nd (fun e => hji e.symm)] at hjo
    rw [dist_set_ne nd (fun e => hji e.symm)] at hjd ⊢
    obtain ⟨hpo, hpd⟩ := hchain j hj hjo hjd
    by_cases hpi : prev_index buf j = index
    · rw [hpi] at hpo
      rw [hempty] at hpo
      exact absurd hpo (by simp)
    · rw [prev_index_set, nodeAt_set_ne nd (fun e => hpi e.symm),
        dist_set_ne nd (fun e => hpi e.symm)]
      exact ⟨hpo, hpd⟩

end RobinHood

/-! ## Specification of the insertion loop -/

namespace RobinHood

variable {K V : Type}

/-- Main specification of the `_insertion_helper` loop.  If the carried
`distance` is the carried node's true probe distance at `index`, the
carried clause holds, and an empty slot lies `s` steps ahead (with the
occupied run bound `distance + s < C`), then the loop succeeds, preserves
the chain invariant, and adds exactly the carried node to the buffer's
content. -/
theorem insertion_helper_loop_spec {s : Nat} :
    ∀ {buf : Buf V} {nd : Node V} {index distance fuel : Nat},
    0 < buf.length → nd.isEmpty = false → ChainInv buf →
    index = (hash_to_index buf nd.hash + distance) % buf.length →
    distance + s < buf.length →
    (nodeAt buf ((index + s) % buf.length)).isEmpty = true →
    (0 < distance →
      (nodeAt buf (prev_index buf index)).isEmpty = false ∧
        distance ≤ distance_to_ideal_bucket buf (prev_index buf index) + 1) →
    s < fuel →
    ∃ buf2, insertion_helper_loop fuel buf nd index distance = some buf2 ∧
      buf2.length = buf.length ∧ ChainInv buf2 ∧
      msNodes buf2 = msNodes buf + nd.pairMS := by
  induction s with
  | zero =>
    intro buf nd index distance fuel hC hnd hchain hidx hds hfree hcarry hfuel
    have hixlt : index < buf.length := by
      rw [hidx]
      exact Nat.mod_lt _ hC
    rw [Nat.add_zero, Nat.mod_eq_of_lt hixlt] at hfree
    cases fuel with
    | zero => omega
    | succ f =>
      rw [insertion_helper_loop, if_pos hfree]
      refine ⟨buf.set index nd, rfl, length_set buf index nd,
        insertion_deposit_chain hC hchain hidx (by omega) hfree hcarry, ?_⟩
      have hms := msNodes_set nd hixlt
      have hnode : (nodeAt buf index).pairMS = 0 := by
        cases hnode2 : nodeAt buf index with
        | empty => rfl
        | occupied h v => rw [hnode2] at hfree; simp [Node.isEmpty] at hfree
      rw [hnode, add_zero] at hms
      exact hms
  | succ s ih =>
    intro buf nd index distance fuel hC hnd hchain hidx hds hfree hcarry hfuel
    have hixlt : index < buf.length := by
      rw [hidx]
      exact Nat.mod_lt _ hC
    cases fuel with
    | zero => omega
    | succ f =>
      rw [insertion_helper_loop]
      by_cases hocc : (nodeAt buf index).isEmpty = true
      · rw [if_pos hocc]
        refine ⟨buf.set index nd, rfl, length_set buf index nd,
          insertion_deposit_chain hC hchain hidx (by omega) hocc hcarry, ?_⟩
        have hms := msNodes_set nd hixlt
        have hnode : (nodeAt buf index).pairMS = 0 := by
          cases hnode2 : nodeAt buf index with
          | empty => rfl
          | occupied h v => rw [hnode2] at hocc; simp [Node.isEmpty] at hocc
        rw [hnode, add_zero] at hms
        exact hms
      · rw [if_neg hocc]
        have hoccf : (nodeAt buf index).isEmpty = false := by
          cases hnode2 : nodeAt buf index with
          | empty => rw [hnode2] at hocc; simp [Node.isEmpty] at hocc
          | occupied h v => rfl
        have hfree2 : (nodeAt buf ((next_index buf index + s) % buf.length)).isEmpty
            = true := by
          have he : (next_index buf index + s) % buf.length
              = (index + (s + 1)) % buf.length := by
            unfold next_index
            rw [Nat.mod_add_mod]
            congr 1
            omega
          rw [he]
          exact hfree
        have hnexteq : next_index buf index
            = (hash_to_index buf nd.hash + (distance + 1)) % buf.length := by
          unfold next_index
          rw [hidx]
          exact pos_step
        set docc := distance_to_ideal_bucket buf index with hdocc
        by_cases hswap : docc < distance
        · rw [if_pos hswap]
          have hlen1 : (buf.set index nd).length = buf.length := length_set buf index nd
          have hC1 : 0 < (buf.set index nd).length := by rwa [hlen1]
          have hnd2 : (nodeAt buf index).isEmpty = false := hoccf
          have hds1 : docc < buf.length := dist_lt hixlt
          have hoccideal : (hash_to_index buf (nodeAt buf index).hash + docc) % buf.length
              = index := dist_spec hixlt
          have hchain1 : ChainInv (buf.set index nd) := by
            intro j hj hjo hjd
            rw [length_set] at hj
            by_cases hji : j = index
            · subst hji
              rw [dist_set_self hC hidx (by omega)] at hjd ⊢
              obtain ⟨hpo, hpd⟩ := hcarry hjd
              have hpne : j ≠ prev_index buf j := by
                intro he
                have hC1e : buf.length = 1 := prev_index_eq_self hj he.symm
                omega
              rw [prev_index_set, nodeAt_set_ne nd hpne, dist_set_ne nd hpne]
              exact ⟨hpo, hpd⟩
            · rw [nodeAt_set_ne nd (fun e => hji e.symm)] at hjo
              rw [dist_set_ne nd (fun e => hji e.symm)] at hjd ⊢
              obtain ⟨hpo, hpd⟩ := hchain j hj hjo hjd
              by_cases hpi : prev_index buf j = index
              · rw [prev_index_set, hpi, nodeAt_set_self nd hixlt,
                  dist_set_self hC hidx (by omega)]
                refine ⟨by rw [hnd], ?_⟩
                rw [hpi] at hpd
                rw [← hdocc] at hpd
                omega
              · rw [prev_index_set, nodeAt_set_ne nd (fun e => hpi e.symm),
                  dist_set_ne nd (fun e => hpi e.symm)]
                exact ⟨hpo, hpd⟩
          have hidx0 : next_index buf index
              = (hash_to_index buf (nodeAt buf index).hash + (docc + 1)) % buf.length := by
            calc next_index buf index = (index + 1) % buf.length := rfl
              _ = ((hash_to_index buf (nodeAt buf index).hash + docc) % buf.length + 1)
                  % buf.length := by rw [hoccideal]
              _ = (hash_to_index buf (nodeAt buf index).hash + (docc + 1)) % buf.length :=
                  pos_step
          have hidx1 : next_index buf index
              = (hash_to_index (buf.set index nd) (nodeAt buf index).hash + (docc + 1))
                % (buf.set index nd).length := by
            rw [hash_to_index_set, hlen1]
            exact hidx0
          have hposne : (next_index buf index + s) % buf.length ≠ index := by
            have he : (next_index buf index + s) % buf.length
                = (index + (s + 1)) % buf.length := by
              unfold next_index
              rw [Nat.mod_add_mod]
              congr 1
              omega
            rw [he]
            exact ahead_ne hixlt (by omega) (by omega)
          have hfree1 : (nodeAt (buf.set index nd)
              ((next_index buf index + s) % (buf.set index nd).length)).isEmpty = true := by
            rw [hlen1, nodeAt_set_ne nd (fun e => hposne e.symm)]
            exact hfree2
          have hcarry1 : 0 < docc + 1 →
              (nodeAt (buf.set index nd)
                (prev_index (buf.set index nd) (next_index buf index))).isEmpty = false ∧
                docc + 1 ≤ distance_to_ideal_bucket (buf.set index nd)
                  (prev_index (buf.set index nd) (next_index buf index)) + 1 := by
            intro _
            have hprev : prev_index (buf.set index nd) (next_index buf index) = index := by
              rw [prev_index_set]
              unfold next_index
              rw [prev_index_pos hC index]
              exact Nat.mod_eq_of_lt hixlt
            rw [hprev, nodeAt_set_self nd hixlt, dist_set_self hC hidx (by omega)]
            exact ⟨hnd, by omega⟩
          obtain ⟨buf2, hb2, hb2len, hb2chain, hb2ms⟩ :=
            @ih (buf.set index nd) (nodeAt buf index) (next_index buf index) (docc + 1) f
              hC1 hnd2 hchain1 hidx1 (by rw [hlen1]; omega) hfree1 hcarry1 (by omega)
          refine ⟨buf2, hb2, by rw [hb2len, hlen1], hb2chain, ?_⟩
          rw [hb2ms]
          exact msNodes_set nd hixlt
        · rw [if_neg hswap]
          have hcarry2 : 0 < distance + 1 →
              (nodeAt buf (prev_index buf (next_index buf index))).isEmpty = false ∧
                distance + 1 ≤ distance_to_ideal_bucket buf
                  (prev_index buf (next_index buf index)) + 1 := by
            intro _
            have hprev : prev_index buf (next_index buf index) = index := by
              unfold next_index
              rw [prev_index_pos hC index]
              exact Nat.mod_eq_of_lt hixlt
            rw [hprev]
            refine ⟨hoccf, ?_⟩
            rw [← hdocc]
            omega
          exact ih hC hnd hchain hnexteq (by omega) hfree2 hcarry2 (by omega)

end RobinHood

/-! ## Entry into the insertion loop -/

namespace RobinHood

variable {K V : Type}

/-- The wrapping starting distance of `_insertion_helper` is at least the
true probe distance `e` of the insertion spot (with equality unless the
probe sequence wrapped past the end of the buffer). -/
theorem subWrap_ge {C b e index : Nat} (hCW : C ≤ WORD) (hb : b ≤ C) (he : e < C)
    (hidx : index = (b + e) % C) : e ≤ subWrap index b := by
  have hC0 : 0 < C := Nat.lt_of_le_of_lt (Nat.zero_le e) he
  unfold subWrap
  rcases Nat.lt_or_ge (b + e) C with hlt | hge
  · rw [Nat.mod_eq_of_lt hlt] at hidx
    subst hidx
    rw [show b + e + WORD - b = e + WORD from by omega, Nat.add_mod_right]
    rw [Nat.mod_eq_of_lt (by unfold WORD at hCW ⊢; omega)]
  · have hmod : (b + e) % C = b + e - C := by
      rw [Nat.mod_eq_sub_mod hge]
      exact Nat.mod_eq_of_lt (by omega)
    rw [hmod] at hidx
    subst hidx
    rw [show b + e - C + WORD - b = e + WORD - C from by omega]
    rw [Nat.mod_eq_of_lt (by unfold WORD at hCW ⊢; omega)]
    omega

/-- The first iteration of the insertion loop does not depend on the
starting distance, as long as both candidate distances exceed the first
slot's probe distance (or the first slot is empty): the deposit ignores
the distance, and a swap resets it to the occupant's probe distance. -/
theorem insertion_helper_loop_entry_irrel {buf : Buf V} {nd : Node V} {index d1 d2 fuel : Nat}
    (hcase : (nodeAt buf index).isEmpty = true ∨
      (distance_to_ideal_bucket buf index < d1 ∧ distance_to_ideal_bucket buf index < d2)) :
    insertion_helper_loop (fuel + 1) buf nd index d1
      = insertion_helper_loop (fuel + 1) buf nd index d2 := by
  rw [insertion_helper_loop, insertion_helper_loop]
  by_cases he : (nodeAt buf index).isEmpty = true
  · rw [if_pos he, if_pos he]
  · rcases hcase with he2 | ⟨h1, h2⟩
    · exact absurd he2 he
    · rw [if_neg he, if_neg he, if_pos h1, if_pos h2]

/-- Specification of `_insertion_helper(node&&)` (used during rehash):
succeeds and adds the node, given any empty slot. -/
theorem insertion_helper_ideal_spec {buf : Buf V} {nd : Node V}
    (hC : 0 < buf.length) (hnd : nd.isEmpty = false) (hchain : ChainInv buf)
    {e0 : Nat} (he0 : e0 < buf.length) (hee : (nodeAt buf e0).isEmpty = true) :
    ∃ buf2, insertion_helper_ideal buf nd = some buf2 ∧ buf2.length = buf.length ∧
      ChainInv buf2 ∧ msNodes buf2 = msNodes buf + nd.pairMS := by
  unfold insertion_helper_ideal
  have hble : hash_to_index buf nd.hash ≤ buf.length := hash_to_index_le _
  have hidx : hash_to_index buf nd.hash
      = (hash_to_index buf nd.hash + 0) % buf.length := by
    rw [Nat.add_zero]
    exact (Nat.mod_eq_of_lt (hash_to_index_lt hC _)).symm
  have hfree : (nodeAt buf ((hash_to_index buf nd.hash
      + cdist buf.length (hash_to_index buf nd.hash) e0) % buf.length)).isEmpty = true := by
    rw [add_cdist hble he0]
    exact hee
  exact insertion_helper_loop_spec hC hnd hchain hidx
    (by simpa using cdist_lt hC (hash_to_index buf nd.hash) e0) hfree
    (fun h => absurd h (Nat.lt_irrefl 0)) (cdist_lt hC _ _)

/-- Specification of `_insertion_helper(node&&, size_type)` at the spot
reported by an unsuccessful `_find_spot` probe: despite the wrapping
starting distance, the loop succeeds, preserves the chain invariant and
adds the node. -/
theorem insertion_helper_spot_spec {buf : Buf V} {nd : Node V} {index e m : Nat}
    (hC : 0 < buf.length) (hCW : buf.length ≤ WORD) (hnd : nd.isEmpty = false)
    (hchain : ChainInv buf)
    (hidx : index = (hash_to_index buf nd.hash + e) % buf.length)
    (hem : e ≤ m) (hm : m < buf.length)
    (hfreem : (nodeAt buf ((hash_to_index buf nd.hash + m) % buf.length)).isEmpty = true)
    (hstop : (nodeAt buf index).isEmpty = true ∨ distance_to_ideal_bucket buf index < e)
    (hpref : ∀ u, u < e →
      (nodeAt buf ((hash_to_index buf nd.hash + u) % buf.length)).isEmpty = false ∧
        u ≤ distance_to_ideal_bucket buf ((hash_to_index buf nd.hash + u) % buf.length)) :
    ∃ buf2, insertion_helper buf nd index = some buf2 ∧ buf2.length = buf.length ∧
      ChainInv buf2 ∧ msNodes buf2 = msNodes buf + nd.pairMS := by
  unfold insertion_helper
  have hble : hash_to_index buf nd.hash ≤ buf.length := hash_to_index_le _
  have hsw : e ≤ subWrap index (hash_to_index buf nd.hash) :=
    subWrap_ge hCW hble (by omega) hidx
  obtain ⟨f, hf⟩ : ∃ f, buf.length = f + 1 := ⟨buf.length - 1, by omega⟩
  have hirrel : insertion_helper_loop buf.length buf nd index
      (subWrap index (hash_to_index buf nd.hash))
      = insertion_helper_loop buf.length buf nd index e := by
    rw [hf]
    apply insertion_helper_loop_entry_irrel
    rcases hstop with h1 | h1
    · exact Or.inl h1
    · exact Or.inr ⟨Nat.lt_of_lt_of_le h1 hsw, h1⟩
  rw [hirrel]
  have hfree : (nodeAt buf ((index + (m - e)) % buf.length)).isEmpty = true := by
    have he2 : (index + (m - e)) % buf.length
        = (hash_to_index buf nd.hash + m) % buf.length := by
      rw [hidx, Nat.mod_add_mod]
      congr 1
      omega
    rw [he2]
    exact hfreem
  have hcarry : 0 < e →
      (nodeAt buf (prev_index buf index)).isEmpty = false ∧
        e ≤ distance_to_ideal_bucket buf (prev_index buf index) + 1 := by
    intro hepos
    have hprev : prev_index buf index
        = (hash_to_index buf nd.hash + (e - 1)) % buf.length := by
      rw [hidx, show hash_to_index buf nd.hash + e
        = hash_to_index buf nd.hash + (e - 1) + 1 from by omega]
      exact prev_index_pos hC _
    obtain ⟨ho, hd⟩ := hpref (e - 1) (by omega)
    rw [hprev]
    exact ⟨ho, by omega⟩
  exact insertion_helper_loop_spec hC hnd hchain hidx (by omega) hfree hcarry (by omega)

end RobinHood

/-! ## On a full buffer the insertion loop never terminates -/

namespace RobinHood

variable {K V : Type}

theorem insertion_helper_loop_none_of_full :
    ∀ {fuel : Nat} {buf : Buf V} {nd : Node V} {index distance : Nat},
    (∀ i, i < buf.length → (nodeAt buf i).isEmpty = false) →
    nd.isEmpty = false →
    index < buf.length →
    insertion_helper_loop fuel buf nd index distance = none := by
  intro fuel
  induction fuel with
  | zero => intro buf nd index distance _ _ _; rfl
  | succ f ih =>
    intro buf nd index distance hfull hnd hidx
    have hC : 0 < buf.length := Nat.lt_of_le_of_lt (Nat.zero_le index) hidx
    rw [insertion_helper_loop]
    rw [if_neg (by rw [hfull index hidx]; simp)]
    by_cases hswap : distance_to_ideal_bucket buf index < distance
    · rw [if_pos hswap]
      apply ih
      · intro i hi
        rw [length_set] at hi
        by_cases hij : index = i
        · rw [← hij, nodeAt_set_self nd hidx]
          exact hnd
        · rw [nodeAt_set_ne nd hij]
          exact hfull i hi
      · exact hfull index hidx
      · rw [length_set]
        exact next_index_lt hC index
    · rw [if_neg hswap]
      exact ih hfull hnd (next_index_lt hC index)

/-! ## The backward shift -/

theorem next_prev_index {buf : Buf V} (hC : 0 < buf.length) {x : Nat} (hx : x < buf.length) :
    (prev_index buf x + 1) % buf.length = x := by
  unfold prev_index
  rw [Nat.mod_add_mod, show x + buf.length - 1 + 1 = x + buf.length from by omega,
    Nat.add_mod_right]
  exact Nat.mod_eq_of_lt hx

/-- Moving the node one slot back lowers its probe distance by one. -/
theorem dist_move {buf : Buf V} {prior current : Nat}
    (hC : 0 < buf.length) (hprior : prior < buf.length)
    (hcur : current = (prior + 1) % buf.length)
    (hd : 1 ≤ distance_to_ideal_bucket buf current)
    (hne : prior ≠ current) :
    distance_to_ideal_bucket ((buf.set prior (nodeAt buf current)).set current .empty) prior
      = distance_to_ideal_bucket buf current - 1 := by
  have hclt : current < buf.length := by
    rw [hcur]
    exact Nat.mod_lt _ hC
  have hspec : (hash_to_index buf (nodeAt buf current).hash
      + distance_to_ideal_bucket buf current) % buf.length = current := dist_spec hclt
  set nd := nodeAt buf current with hnd
  set b2 := hash_to_index buf nd.hash with hb2
  set d := distance_to_ideal_bucket buf current with hdd
  have hdC : d < buf.length := dist_lt hclt
  have hprioreq : prior = (b2 + (d - 1)) % buf.length := by
    have h1 : (b2 + (d - 1) + 1) % buf.length = current := by
      rw [show b2 + (d - 1) + 1 = b2 + d from by omega]
      exact hspec
    have h2 : prev_index buf current = (b2 + (d - 1)) % buf.length := by
      rw [← h1]
      exact prev_index_pos hC _
    have h3 : prev_index buf current = prior := by
      rw [hcur, prev_index_pos hC prior]
      exact Nat.mod_eq_of_lt hprior
    rw [← h3, h2]
  have hlen : ((buf.set prior nd).set current Node.empty).length = buf.length := by
    rw [length_set, length_set]
  have hn1 : nodeAt ((buf.set prior nd).set current .empty) prior = nd := by
    rw [nodeAt_set_ne _ (fun e => hne e.symm)]
    exact nodeAt_set_self nd hprior
  have hpos : (b2 + (d - 1)) % ((buf.set prior nd).set current Node.empty).length
      = prior := by
    rw [hlen, ← hprioreq]
  have hres := @dist_of_pos V ((buf.set prior nd).set current Node.empty) b2 (d - 1) ?hb ?hd
  case hb =>
    rw [hpos, hn1, hash_to_index_set, hash_to_index_set]
  case hd =>
    rw [hlen]
    omega
  rw [hpos] at hres
  exact hres

/-- Each move of the backward shift decreases the total probe distance by
exactly one. -/
theorem sum_dist_move {buf : Buf V} {prior current : Nat}
    (hC : 0 < buf.length) (hprior : prior < buf.length)
    (hcur : current = (prior + 1) % buf.length)
    (hne : prior ≠ current)
    (hpe : (nodeAt buf prior).isEmpty = true)
    (hocc : (nodeAt buf current).isEmpty = false)
    (hd : 1 ≤ distance_to_ideal_bucket buf current) :
    sum_dist ((buf.set prior (nodeAt buf current)).set current .empty) + 1
      = sum_dist buf := by
  have hclt : current < buf.length := by
    rw [hcur]
    exact Nat.mod_lt _ hC
  set nd := nodeAt buf current with hnd
  set buf2 := (buf.set prior nd).set current Node.empty with hbuf2
  have hlen : buf2.length = buf.length := by
    rw [hbuf2, length_set, length_set]
  have hn1 : nodeAt buf2 prior = nd := by
    rw [hbuf2, nodeAt_set_ne _ (fun e => hne e.symm)]
    exact nodeAt_set_self nd hprior
  have hn2 : nodeAt buf2 current = Node.empty := by
    rw [hbuf2]
    apply nodeAt_set_self
    rw [length_set]
    exact hclt
  have hd2 : distance_to_ideal_bucket buf2 prior
      = distance_to_ideal_bucket buf current - 1 := dist_move hC hprior hcur hd hne
  have hmemp : prior ∈ Finset.range buf.length := Finset.mem_range.2 hprior
  have hmemc : current ∈ (Finset.range buf.length).erase prior :=
    Finset.mem_erase.2 ⟨fun e => hne e.symm, Finset.mem_range.2 hclt⟩
  have hexpand : ∀ (g : Nat → Nat), (Finset.range buf.length).sum g
      = g prior + (g current + (((Finset.range buf.length).erase prior).erase current).sum g)
      := by
    intro g
    rw [Finset.add_sum_erase _ g hmemc, Finset.add_sum_erase _ g hmemp]
  have hf2 : sum_dist buf2
      = (Finset.range buf.length).sum fun i =>
          if (nodeAt buf2 i).isEmpty = true then 0 else distance_to_ideal_bucket buf2 i := by
    unfold sum_dist
    rw [hlen]
  have hsame : (((Finset.range buf.length).erase prior).erase current).sum
      (fun i => if (nodeAt buf2 i).isEmpty = true then 0 else distance_to_ideal_bucket buf2 i)
      = (((Finset.range buf.length).erase prior).erase current).sum
      (fun i => if (nodeAt buf i).isEmpty = true then 0 else distance_to_ideal_bucket buf i)
      := by
    apply Finset.sum_congr rfl
    intro i hi
    have hic : i ≠ current := (Finset.mem_erase.1 hi).1
    have hip : i ≠ prior := (Finset.mem_erase.1 ((Finset.mem_erase.1 hi).2)).1
    have he1 : nodeAt buf2 i = nodeAt buf i := by
      rw [hbuf2, nodeAt_set_ne _ (fun e => hic e.symm),
        nodeAt_set_ne _ (fun e => hip e.symm)]
    have he2 : distance_to_ideal_bucket buf2 i = distance_to_ideal_bucket buf i := by
      rw [hbuf2, dist_set_ne _ (fun e => hic e.symm), dist_set_ne _ (fun e => hip e.symm)]
    rw [he1, he2]
  rw [hf2, hexpand, hsame]
  unfold sum_dist
  rw [hexpand]
  have hv1 : (if (nodeAt buf2 prior).isEmpty = true then 0
      else distance_to_ideal_bucket buf2 prior)
      = distance_to_ideal_bucket buf current - 1 := by
    rw [hn1, hd2, if_neg (by simp [hocc])]
  have hv2 : (if (nodeAt buf2 current).isEmpty = true then 0
      else distance_to_ideal_bucket buf2 current) = 0 := by
    rw [hn2]
    simp [Node.isEmpty]
  have hv3 : (if (nodeAt buf prior).isEmpty = true then 0
      else distance_to_ideal_bucket buf prior) = 0 := by
    rw [if_pos hpe]
  have hv4 : (if (nodeAt buf current).isEmpty = true then 0
      else distance_to_ideal_bucket buf current) = distance_to_ideal_bucket buf current := by
    rw [if_neg (by rw [hocc]; simp)]
  rw [hv1, hv2, hv3, hv4]
  omega

end RobinHood

namespace RobinHood

variable {K V : Type}

theorem pairMS_eq_zero {V : Type} {nd : Node V} (h : nd.isEmpty = true) : nd.pairMS = 0 := by
  cases nd with
  | empty => rfl
  | occupied h2 v => simp [Node.isEmpty] at h

/-- Specification of the `_backward_shift` loop: starting from a cleared
slot at `prior` with the gap-exempt chain invariant and the support
clause, the loop restores the full chain invariant and leaves the
buffer's content unchanged. -/
theorem backward_shift_loop_spec :
    ∀ {fuel : Nat} {buf : Buf V} {prior current : Nat},
    0 < buf.length → prior < buf.length →
    current = (prior + 1) % buf.length →
    (nodeAt buf prior).isEmpty = true →
    ChainInvExcept buf current →
    ((nodeAt buf current).isEmpty = false → 2 ≤ distance_to_ideal_bucket buf current →
      (nodeAt buf (prev_index buf prior)).isEmpty = false ∧
        distance_to_ideal_bucket buf current
          ≤ distance_to_ideal_bucket buf (prev_index buf prior) + 2) →
    sum_dist buf < fuel →
    (backward_shift_loop fuel buf prior current).length = buf.length ∧
      ChainInv (backward_shift_loop fuel buf prior current) ∧
      msNodes (backward_shift_loop fuel buf prior current) = msNodes buf := by
  intro fuel
  induction fuel with
  | zero =>
    intro buf prior current _ _ _ _ _ _ hfuel
    omega
  | succ f ih =>
    intro buf prior current hC hprior hcur hpe hchainX hsupport hfuel
    have hclt : current < buf.length := by
      rw [hcur]
      exact Nat.mod_lt _ hC
    rw [backward_shift_loop]
    by_cases hcond : (nodeAt buf current).isEmpty = false ∧
        0 < distance_to_ideal_bucket buf current
    · rw [if_pos hcond]
      obtain ⟨hocc, hdpos⟩ := hcond
      have hne : prior ≠ current := by
        intro he
        rw [← he, hpe] at hocc
        simp at hocc
      have h2C : 2 ≤ buf.length := by
        by_contra h1
        have hC1 : buf.length = 1 := by omega
        apply hne
        rw [hcur, hC1]
        omega
      set nd := nodeAt buf current with hnd
      set buf2 := (buf.set prior nd).set current Node.empty with hbuf2
      have hlen2 : buf2.length = buf.length := by
        rw [hbuf2, length_set, length_set]
      have hn1 : nodeAt buf2 prior = nd := by
        rw [hbuf2, nodeAt_set_ne _ (fun e => hne e.symm)]
        exact nodeAt_set_self nd hprior
      have hn2 : nodeAt buf2 current = Node.empty := by
        rw [hbuf2]
        apply nodeAt_set_self
        rw [length_set]
        exact hclt
      have hd2 : distance_to_ideal_bucket buf2 prior
          = distance_to_ideal_bucket buf current - 1 := dist_move hC hprior hcur (by omega) hne
      have hprev_cur : prev_index buf current = prior := by
        rw [hcur, prev_index_pos hC prior]
        exact Nat.mod_eq_of_lt hprior
      have hnextcur_lt : next_index buf current < buf.length := next_index_lt hC current
      have hprev_cur2 : prev_index buf (next_index buf current) = current := by
        unfold next_index
        rw [prev_index_pos hC current]
        exact Nat.mod_eq_of_lt hclt
      have hnextcur_ne : next_index buf current ≠ current := by
        intro he
        have h1 : prev_index buf current = current := by rw [← he, hprev_cur2, he]
        have h2 : buf.length = 1 := prev_index_eq_self hclt h1
        omega
      -- chain invariant of the moved buffer, exempting the new gap front
      have hchainX2 : ChainInvExcept buf2 (next_index buf current) := by
        intro j hj hjne hjo hjd
        rw [hlen2] at hj
        by_cases hjp : j = prior
        · subst hjp
          rw [hn1] at hjo
          rw [hd2] at hjd ⊢
          obtain ⟨hso, hsd⟩ := hsupport hocc (by omega)
          have hppne1 : prev_index buf j ≠ j := by
            intro he
            have := prev_index_eq_self hprior he
            omega
          have hppne2 : prev_index buf j ≠ current := by
            intro he
            have h1 : (prev_index buf j + 1) % buf.length = j := next_prev_index hC hprior
            rw [he] at h1
            exact hjne (by rw [← h1]; rfl)
          have hpidx : prev_index buf2 j = prev_index buf j := by
            rw [hbuf2, prev_index_set, prev_index_set]
          rw [hpidx, hbuf2, nodeAt_set_ne _ (fun e => hppne2 e.symm),
            nodeAt_set_ne _ (fun e => hppne1 e.symm),
            dist_set_ne _ (fun e => hppne2 e.symm), dist_set_ne _ (fun e => hppne1 e.symm)]
          exact ⟨hso, by omega⟩
        · by_cases hjc : j = current
          · rw [hjc, hn2] at hjo
            simp [Node.isEmpty] at hjo
          · have hn3 : nodeAt buf2 j = nodeAt buf j := by
              rw [hbuf2, nodeAt_set_ne _ (fun e => hjc e.symm),
                nodeAt_set_ne _ (fun e => hjp e.symm)]
            have hd3 : distance_to_ideal_bucket buf2 j = distance_to_ideal_bucket buf j := by
              rw [hbuf2, dist_set_ne _ (fun e => hjc e.symm),
                dist_set_ne _ (fun e => hjp e.symm)]
            rw [hn3] at hjo
            rw [hd3] at hjd ⊢
            obtain ⟨ho, hd⟩ := hchainX j hj hjc hjo hjd
            have hpjne1 : prev_index buf j ≠ prior := by
              intro he
              have h1 : (prev_index buf j + 1) % buf.length = j := next_prev_index hC hj
              rw [he, ← hcur] at h1
              exact hjc h1.symm
            have hpjne2 : prev_index buf j ≠ current := by
              intro he
              have h1 : (prev_index buf j + 1) % buf.length = j := next_prev_index hC hj
              rw [he] at h1
              exact hjne (by rw [← h1]; rfl)
            have hpidx : prev_index buf2 j = prev_index buf j := by
              rw [hbuf2, prev_index_set, prev_index_set]
            rw [hpidx, hbuf2, nodeAt_set_ne _ (fun e => hpjne2 e.symm),
              nodeAt_set_ne _ (fun e => hpjne1 e.symm),
              dist_set_ne _ (fun e => hpjne2 e.symm), dist_set_ne _ (fun e => hpjne1 e.symm)]
            exact ⟨ho, hd⟩
      -- support clause for the advanced gap
      have hsupport2 : (nodeAt buf2 (next_index buf current)).isEmpty = false →
          2 ≤ distance_to_ideal_bucket buf2 (next_index buf current) →
          (nodeAt buf2 (prev_index buf2 current)).isEmpty = false ∧
            distance_to_ideal_bucket buf2 (next_index buf current)
              ≤ distance_to_ideal_bucket buf2 (prev_index buf2 current) + 2 := by
        intro hso hsd
        have hpidx : prev_index buf2 current = prior := by
          rw [hbuf2, prev_index_set, prev_index_set, hprev_cur]
        rw [hpidx, hn1, hd2]
        refine ⟨hocc, ?_⟩
        by_cases hnp : next_index buf current = prior
        · rw [hnp, hd2]
          omega
        · have hd4 : distance_to_ideal_bucket buf2 (next_index buf current)
              = distance_to_ideal_bucket buf (next_index buf current) := by
            rw [hbuf2, dist_set_ne _ (fun e => hnextcur_ne e.symm),
              dist_set_ne _ (fun e => hnp e.symm)]
          have hn4 : nodeAt buf2 (next_index buf current)
              = nodeAt buf (next_index buf current) := by
            rw [hbuf2, nodeAt_set_ne _ (fun e => hnextcur_ne e.symm),
              nodeAt_set_ne _ (fun e => hnp e.symm)]
          rw [hd4]
          rw [hn4] at hso
          rw [hd4] at hsd
          obtain ⟨_, hbound⟩ := hchainX (next_index buf current) hnextcur_lt hnextcur_ne
            hso (by omega)
          rw [hprev_cur2] at hbound
          omega
      have hsum : sum_dist buf2 + 1 = sum_dist buf :=
        sum_dist_move hC hprior hcur hne hpe hocc (by omega)
      have hcur2 : next_index buf current = (current + 1) % buf2.length := by
        rw [hlen2]
        rfl
      obtain ⟨hl, hch, hms⟩ := ih (by rw [hlen2]; exact hC) (by rw [hlen2]; exact hclt)
        hcur2 (by rw [hn2]; rfl) hchainX2 hsupport2 (by omega)
      refine ⟨by rw [hl, hlen2], hch, ?_⟩
      rw [hms]
      -- content preserved by the move
      have hms1 : msNodes (buf.set prior nd) = msNodes buf + nd.pairMS := by
        have h1 := msNodes_set nd hprior
        rw [pairMS_eq_zero hpe, add_zero] at h1
        exact h1
      have hms2 : msNodes buf2 + nd.pairMS = msNodes (buf.set prior nd) + Node.empty.pairMS
          := by
        have h2 := msNodes_set Node.empty
          (show current < (buf.set prior nd).length from by rw [length_set]; exact hclt)
        rw [nodeAt_set_ne nd (fun e => hne e), ← hnd] at h2
        exact h2
      rw [hms1] at hms2
      simp only [Node.pairMS, add_zero] at hms2
      exact add_right_cancel hms2
    · rw [if_neg hcond]
      refine ⟨rfl, ?_, rfl⟩
      intro j hj hjo hjd
      by_cases hjc : j = current
      · rw [hjc] at hjo hjd
        exact absurd ⟨hjo, hjd⟩ hcond
      · exact hchainX j hj hjc hjo hjd

end RobinHood

namespace RobinHood

variable {K V : Type}

/-- Specification of `_backward_shift`: erasing slot `j` of a buffer with
the chain invariant restores the chain invariant and removes exactly the
erased slot's content. -/
theorem backward_shift_spec {buf : Buf V} {j : Nat}
    (hchain : ChainInv buf) (hj : j < buf.length) :
    (backward_shift buf j).length = buf.length ∧ ChainInv (backward_shift buf j) ∧
      msNodes (backward_shift buf j) + (nodeAt buf j).pairMS = msNodes buf := by
  have hC : 0 < buf.length := Nat.lt_of_le_of_lt (Nat.zero_le j) hj
  unfold backward_shift
  have hlenc : (buf.set j Node.empty).length = buf.length := length_set buf j Node.empty
  have hpe : (nodeAt (buf.set j Node.empty) j).isEmpty = true := by
    rw [nodeAt_set_self Node.empty hj]
    rfl
  have hcur : next_index buf j = (j + 1) % (buf.set j Node.empty).length := by
    rw [hlenc]
    rfl
  have hchainX : ChainInvExcept (buf.set j Node.empty) (next_index buf j) := by
    intro i hi hine hio hid
    rw [hlenc] at hi
    by_cases hij : i = j
    · rw [hij, nodeAt_set_self Node.empty hj] at hio
      simp [Node.isEmpty] at hio
    · rw [nodeAt_set_ne _ (fun e => hij e.symm)] at hio
      rw [dist_set_ne _ (fun e => hij e.symm)] at hid ⊢
      obtain ⟨ho, hb⟩ := hchain i hi hio hid
      have hpine : prev_index buf i ≠ j := by
        intro he
        have h1 : (prev_index buf i + 1) % buf.length = i := next_prev_index hC hi
        rw [he] at h1
        exact hine (by rw [← h1]; rfl)
      rw [prev_index_set, nodeAt_set_ne _ (fun e => hpine e.symm),
        dist_set_ne _ (fun e => hpine e.symm)]
      exact ⟨ho, hb⟩
  have hsupport : (nodeAt (buf.set j Node.empty) (next_index buf j)).isEmpty = false →
      2 ≤ distance_to_ideal_bucket (buf.set j Node.empty) (next_index buf j) →
      (nodeAt (buf.set j Node.empty)
        (prev_index (buf.set j Node.empty) j)).isEmpty = false ∧
        distance_to_ideal_bucket (buf.set j Node.empty) (next_index buf j)
          ≤ distance_to_ideal_bucket (buf.set j Node.empty)
              (prev_index (buf.set j Node.empty) j) + 2 := by
    intro hso hsd
    by_cases hcj : next_index buf j = j
    · rw [hcj, nodeAt_set_self Node.empty hj] at hso
      simp [Node.isEmpty] at hso
    · rw [nodeAt_set_ne _ (fun e => hcj e.symm)] at hso
      rw [dist_set_ne _ (fun e => hcj e.symm)] at hsd ⊢
      have hnlt : next_index buf j < buf.length := next_index_lt hC j
      obtain ⟨ho1, hb1⟩ := hchain (next_index buf j) hnlt hso (by omega)
      have hprevnext : prev_index buf (next_index buf j) = j := by
        unfold next_index
        rw [prev_index_pos hC j]
        exact Nat.mod_eq_of_lt hj
      rw [hprevnext] at ho1 hb1
      have hjd : 0 < distance_to_ideal_bucket buf j := by omega
      obtain ⟨ho2, hb2⟩ := hchain j hj ho1 hjd
      have hpjne : prev_index buf j ≠ j := by
        intro he
        have hC1 := prev_index_eq_self hj he
        apply hcj
        unfold next_index
        rw [hC1]
        omega
      rw [prev_index_set, nodeAt_set_ne _ (fun e => hpjne e.symm),
        dist_set_ne _ (fun e => hpjne e.symm)]
      exact ⟨ho2, by omega⟩
  obtain ⟨hl, hch, hms⟩ := backward_shift_loop_spec (by rw [hlenc]; exact hC)
    (by rw [hlenc]; exact hj) hcur hpe hchainX hsupport (Nat.lt_succ_self _)
  refine ⟨by rw [hl, hlenc], hch, ?_⟩
  rw [hms]
  have h1 := msNodes_set Node.empty hj
  simp only [Node.pairMS, add_zero] at h1
  exact h1

end RobinHood

/-! ## The rehash reinsertion -/

namespace RobinHood

variable {K V : Type}

theorem chain_mkBuf (c : Nat) : ChainInv (mkBuf V c) := by
  intro i _ hio
  rw [nodeAt_replicate] at hio
  simp [Node.isEmpty] at hio

theorem reinsert_all_spec :
    ∀ {l : List (Node V)} {acc : Buf V} {n : Nat},
    0 < acc.length → ChainInv acc →
    Multiset.card (msNodes acc) + occupied_count l ≤ acc.length →
    ∃ b2 n2, reinsert_all l (acc, n) = some (b2, n2) ∧ b2.length = acc.length ∧
      ChainInv b2 ∧ msNodes b2 = msNodes acc + msNodes l ∧ n2 = n + occupied_count l := by
  intro l
  induction l with
  | nil =>
    intro acc n hC hchain hcount
    exact ⟨acc, n, rfl, rfl, hchain, by rw [msNodes_nil, add_zero],
      by rw [show occupied_count ([] : Buf V) = 0 from rfl, Nat.add_zero]⟩
  | cons hd rest ih =>
    intro acc n hC hchain hcount
    cases hd with
    | empty =>
      have hocc : occupied_count (Node.empty :: rest) = occupied_count rest := by
        simp [occupied_count, List.countP_cons, Node.isEmpty]
      rw [hocc] at hcount
      obtain ⟨b2, n2, hres, hlen, hch, hms, hn⟩ := ih hC hchain hcount
      exact ⟨b2, n2, hres, hlen, hch,
        by rw [hms, msNodes_cons, Node.pairMS, zero_add], by rw [hn, hocc]⟩
    | occupied h v =>
      have hocc : occupied_count (Node.occupied h v :: rest) = occupied_count rest + 1 := by
        simp [occupied_count, List.countP_cons, Node.isEmpty]
      rw [hocc] at hcount
      have hcard : occupied_count acc < acc.length := by
        rw [← card_msNodes]
        omega
      obtain ⟨e0, he0, hee⟩ := exists_empty_of_count_lt hcard
      obtain ⟨bufm, hbm, hbmlen, hbmchain, hbmms⟩ :=
        @insertion_helper_ideal_spec V acc (Node.occupied h v) hC rfl hchain e0 he0 hee
      have hcard2 : Multiset.card (msNodes bufm) + occupied_count rest ≤ bufm.length := by
        rw [hbmms, hbmlen, Multiset.card_add]
        simp only [Node.pairMS, Multiset.card_singleton]
        omega
      obtain ⟨b2, n2, hres, hlen, hch, hms, hn⟩ :=
        ih (by rw [hbmlen]; exact hC) hbmchain hcard2
      refine ⟨b2, n2, ?_, by rw [hlen, hbmlen], hch, ?_, ?_⟩
      · rw [reinsert_all, hbm]
        exact hres
      · rw [hms, hbmms, msNodes_cons, add_assoc]
      · rw [hn, hocc]
        omega

/-- Specification of `_rehash` in the growing case. -/
theorem rehash_spec {t : HashTable V} {cap : Nat} (hgrow : t.data.length < cap)
    (hchain : ChainInv t.data) :
    ∃ t2, rehash t cap = some t2 ∧ t2.data.length = cap ∧ ChainInv t2.data ∧
      msNodes t2.data = msNodes t.data ∧ t2.size = occupied_count t.data := by
  have hcap : 0 < cap := Nat.lt_of_le_of_lt (Nat.zero_le _) hgrow
  have hC : 0 < (mkBuf V cap).length := by rw [length_mkBuf]; exact hcap
  have hcount : Multiset.card (msNodes (mkBuf V cap)) + occupied_count t.data
      ≤ (mkBuf V cap).length := by
    rw [msNodes_mkBuf, length_mkBuf]
    simp only [Multiset.card_zero, Nat.zero_add]
    exact Nat.le_of_lt (Nat.lt_of_le_of_lt (occupied_count_le _) hgrow)
  obtain ⟨b2, n2, hres, hlen, hch, hms, hn⟩ :=
    @reinsert_all_spec V t.data (mkBuf V cap) 0 hC (chain_mkBuf cap) hcount
  refine ⟨⟨b2, n2⟩, ?_, ?_, hch, ?_, ?_⟩
  · unfold rehash
    rw [if_pos hgrow, hres]
  · rw [hlen, length_mkBuf]
  · rw [hms, msNodes_mkBuf, zero_add]
  · rw [hn, Nat.zero_add]

end RobinHood

/-! ## Table-level lemmas -/

namespace RobinHood

variable {K V : Type}

theorem mem_msKeys_iff {ks : V → K} {buf : Buf V} {k : K} :
    k ∈ msKeys ks buf ↔ present ks buf k := by
  constructor
  · intro h
    obtain ⟨p, hp, he⟩ := Multiset.mem_map.1 h
    obtain ⟨i, hi, hslot⟩ := mem_msNodes.1 hp
    exact ⟨i, hi, by rw [hslot, Node.key?, he]⟩
  · rintro ⟨i, hi, hkey⟩
    cases hnd : nodeAt buf i with
    | empty => rw [hnd] at hkey; simp [Node.key?] at hkey
    | occupied h2 v2 =>
      rw [hnd] at hkey
      simp only [Node.key?, Option.some_inj] at hkey
      exact Multiset.mem_map.2 ⟨(h2, v2), mem_msNodes.2 ⟨i, hi, hnd⟩, hkey⟩

/-- In a table with duplicate-free keys, the key of an entry determines
the entry. -/
theorem value_unique_of_keys_nodup {ks : V → K} {s : Multiset (Nat × V)}
    (hnd : (s.map fun p => ks p.2).Nodup) {p q : Nat × V} (hp : p ∈ s) (hq : q ∈ s)
    (hk : ks p.2 = ks q.2) : p = q := by
  by_contra hne
  obtain ⟨t2, rfl⟩ := Multiset.exists_cons_of_mem hp
  rw [Multiset.map_cons] at hnd
  obtain ⟨hnotin, _⟩ := Multiset.nodup_cons.1 hnd
  rcases Multiset.mem_cons.1 hq with he | hq2
  · exact absurd he.symm hne
  · exact hnotin (Multiset.mem_map.2 ⟨q, hq2, hk.symm⟩)

/-- If a probe for `k` (with `k`'s hash, correctly cached) reports *not
found*, then `k` is absent — under the chain invariant, duplicate-free
keys and correct cached hashes. -/
theorem find_spot_false_not_present [DecidableEq K] {hf : K → Nat} {ks : V → K}
    {buf : Buf V} {k : K} {j : Nat}
    (hchain : ChainInv buf) (hnodup : (msKeys ks buf).Nodup)
    (hhash : ∀ p ∈ msNodes buf, p.1 = hf (ks p.2))
    (hres : find_spot ks buf k (hf k) = (j, false)) : ¬ present ks buf k := by
  rintro ⟨i, hi, hkey⟩
  cases hnd : nodeAt buf i with
  | empty => rw [hnd] at hkey; simp [Node.key?] at hkey
  | occupied h2 v2 =>
    rw [hnd] at hkey
    simp only [Node.key?, Option.some_inj] at hkey
    have hmem : (h2, v2) ∈ msNodes buf := mem_msNodes.2 ⟨i, hi, hnd⟩
    have hh2 : h2 = hf k := by
      have h3 := hhash (h2, v2) hmem
      simp only at h3
      rw [hkey] at h3
      exact h3
    have hfound := find_spot_present_found hchain hnodup hi hnd
    rw [hkey, hh2, hres] at hfound
    simp at hfound

/-- Overwriting the value of an occupied slot with a node carrying the
same cached hash preserves the chain invariant. -/
theorem chain_set_samehash {buf : Buf V} {j h : Nat} {v vold : V}
    (hj : j < buf.length) (hold : nodeAt buf j = .occupied h vold)
    (hchain : ChainInv buf) : ChainInv (buf.set j (.occupied h v)) := by
  have hdist : ∀ m, distance_to_ideal_bucket (buf.set j (.occupied h v)) m
      = distance_to_ideal_bucket buf m := by
    intro m
    by_cases hmj : m = j
    · subst hmj
      unfold distance_to_ideal_bucket
      rw [nodeAt_set_self _ hj, hold, length_set, hash_to_index_set]
      rfl
    · exact dist_set_ne _ (fun e => hmj e.symm)
  have hemp : ∀ m, (nodeAt (buf.set j (.occupied h v)) m).isEmpty
      = (nodeAt buf m).isEmpty := by
    intro m
    by_cases hmj : m = j
    · subst hmj
      rw [nodeAt_set_self _ hj, hold]
      rfl
    · rw [nodeAt_set_ne _ (fun e => hmj e.symm)]
  intro i hi hio hid
  rw [length_set] at hi
  rw [hemp] at hio
  rw [hdist] at hid
  obtain ⟨ho, hb⟩ := hchain i hi hio hid
  rw [prev_index_set, hemp, hdist, hdist]
  exact ⟨ho, hb⟩

theorem float_round_small {n : Nat} (h : n < 2 ^ 24) : float_round n = n := by
  unfold float_round
  rw [if_pos h]

theorem round_at_double (s n : Nat) (hs : 1 ≤ s) :
    round_at (s + 1) (2 * n) = 2 * round_at s n := by
  unfold round_at
  have hq : 2 * n / 2 ^ (s + 1) = n / 2 ^ s := by
    rw [pow_succ, Nat.mul_comm (2 ^ s) 2]
    exact Nat.mul_div_mul_left n (2 ^ s) (by omega)
  have hr : 2 * n % 2 ^ (s + 1) = 2 * (n % 2 ^ s) := by
    rw [pow_succ, Nat.mul_comm (2 ^ s) 2, Nat.mul_mod_mul_left]
  have hh : (2 : Nat) ^ (s + 1 - 1) = 2 * 2 ^ (s - 1) := by
    rw [Nat.add_sub_cancel, ← pow_succ']
    congr 1
    omega
  rw [hq, hr, hh]
  by_cases hc1 : n % 2 ^ s < 2 ^ (s - 1)
  · rw [if_pos (by omega), if_pos hc1, pow_succ]
    ring
  · rw [if_neg (by omega), if_neg hc1]
    by_cases hc2 : 2 ^ (s - 1) < n % 2 ^ s
    · rw [if_pos (by omega), if_pos hc2, pow_succ]
      ring
    · rw [if_neg (by omega), if_neg hc2, pow_succ]
      ring

theorem float_round_double (n : Nat) : float_round (2 * n) = 2 * float_round n := by
  rcases Nat.eq_zero_or_pos n with h0 | hpos
  · subst h0
    rfl
  unfold float_round
  by_cases h1 : 2 * n < 2 ^ 24
  · rw [if_pos h1, if_pos (by omega)]
  · rw [if_neg h1]
    have hlog : Nat.log2 (2 * n) = Nat.log2 n + 1 := by
      rw [Nat.log2_eq_log_two, Nat.log2_eq_log_two, Nat.mul_comm,
        Nat.log_mul_base (by omega) (by omega)]
    by_cases h2 : n < 2 ^ 24
    · rw [if_pos h2, hlog]
      have hl : Nat.log2 n = 23 := by
        rw [Nat.log2_eq_log_two]
        exact Nat.log_eq_of_pow_le_of_lt_pow (by omega) (by omega)
      rw [hl]
      show round_at (23 + 1 - 23) (2 * n) = 2 * n
      have he : (23 + 1 - 23 : Nat) = 1 := rfl
      rw [he]
      unfold round_at
      have hm : 2 * n % 2 ^ 1 = 0 := by
        rw [pow_one, Nat.mul_mod_right]
      rw [if_pos (by rw [hm]; exact Nat.pos_pow_of_pos _ (by omega))]
      rw [pow_one, Nat.mul_div_cancel_left n (by omega)]
      ring
    · rw [if_neg h2, hlog]
      have h24 : 24 ≤ Nat.log2 n := by
        rw [Nat.log2_eq_log_two]
        exact (Nat.pow_le_iff_le_log (by omega) (by omega)).1 (by omega)
      have hseq : Nat.log2 n + 1 - 23 = (Nat.log2 n - 23) + 1 := by omega
      rw [hseq]
      exact round_at_double (Nat.log2 n - 23) n (by omega)

theorem float_round_pos {n : Nat} (hn : 1 ≤ n) : 1 ≤ float_round n := by
  unfold float_round
  by_cases h1 : n < 2 ^ 24
  · rw [if_pos h1]
    exact hn
  · rw [if_neg h1]
    unfold round_at
    have hsle : 2 ^ (Nat.log2 n - 23) ≤ n := by
      calc 2 ^ (Nat.log2 n - 23) ≤ 2 ^ Nat.log2 n :=
            Nat.pow_le_pow_right (by omega) (by omega)
        _ ≤ n := Nat.log2_self_le (by omega)
    have hq : 1 ≤ n / 2 ^ (Nat.log2 n - 23) :=
      (Nat.one_le_div_iff (Nat.pos_pow_of_pos _ (by omega))).2 hsle
    have hp : 1 ≤ 2 ^ (Nat.log2 n - 23) := Nat.one_le_two_pow
    by_cases hc1 : n % 2 ^ (Nat.log2 n - 23) < 2 ^ (Nat.log2 n - 23 - 1)
    · rw [if_pos hc1]
      exact Nat.mul_pos hq hp
    · rw [if_neg hc1]
      by_cases hc2 : 2 ^ (Nat.log2 n - 23 - 1) < n % 2 ^ (Nat.log2 n - 23)
      · rw [if_pos hc2]
        exact Nat.mul_pos (by omega) hp
      · rw [if_neg hc2]
        exact Nat.mul_pos (by omega) hp

theorem float_round_le (n : Nat) : float_round n ≤ n + n / 2 ^ 24 := by
  unfold float_round
  by_cases h1 : n < 2 ^ 24
  · rw [if_pos h1]
    omega
  · rw [if_neg h1]
    unfold round_at
    have h24 : 24 ≤ Nat.log2 n := by
      rw [Nat.log2_eq_log_two]
      exact (Nat.pow_le_iff_le_log (by omega) (by omega)).1 (by omega)
    have hsub : n / 2 ^ (Nat.log2 n - 23) * 2 ^ (Nat.log2 n - 23)
        + n % 2 ^ (Nat.log2 n - 23) = n := Nat.div_add_mod' n (2 ^ (Nat.log2 n - 23))
    have hhalf : 2 ^ (Nat.log2 n - 23 - 1) ≤ n / 2 ^ 24 := by
      have hle : 2 ^ (Nat.log2 n - 23 - 1) * 2 ^ 24 ≤ n := by
        rw [← pow_add]
        have he : Nat.log2 n - 23 - 1 + 24 = Nat.log2 n := by omega
        rw [he]
        exact Nat.log2_self_le (by omega)
      exact (Nat.le_div_iff_mul_le (by omega)).2 hle
    have h2s : (2 : Nat) ^ (Nat.log2 n - 23) = 2 * 2 ^ (Nat.log2 n - 23 - 1) := by
      rw [← pow_succ']
      congr 1
      omega
    by_cases hc1 : n % 2 ^ (Nat.log2 n - 23) < 2 ^ (Nat.log2 n - 23 - 1)
    · rw [if_pos hc1]
      omega
    · rw [if_neg hc1]
      by_cases hc2 : 2 ^ (Nat.log2 n - 23 - 1) < n % 2 ^ (Nat.log2 n - 23)
      · rw [if_pos hc2, Nat.add_mul, Nat.one_mul]
        omega
      · rw [if_neg hc2, Nat.add_mul]
        have hq2 : n / 2 ^ (Nat.log2 n - 23) % 2 ≤ 1 := by omega
        have hle2 : n / 2 ^ (Nat.log2 n - 23) % 2 * 2 ^ (Nat.log2 n - 23)
            ≤ 1 * 2 ^ (Nat.log2 n - 23) :=
          Nat.mul_le_mul_right _ hq2
        rw [Nat.one_mul] at hle2
        omega

/-- Specification of `_try_to_rehash` on a well-formed table: it always
succeeds, preserves content and chain invariant, and leaves the table
ready to take one more entry within the (float-computed) load-factor
bound (or in the saturated regime `capacity ≥ 2^63`, where the doubling
has wrapped to zero and growth is disabled). -/
theorem try_to_rehash_spec {t : HashTable V}
    (hsize : t.size = occupied_count t.data)
    (hchain : ChainInv t.data)
    (hcap : t.data.length < WORD)
    (hlf : 2 * t.size ≤ float_round t.data.length ∨ 2 ^ 63 ≤ t.data.length) :
    ∃ t1 rehashed, try_to_rehash t = some (t1, rehashed) ∧
      t1.data.length < WORD ∧ ChainInv t1.data ∧ msNodes t1.data = msNodes t.data ∧
      t1.size = t.size ∧ t1.size = occupied_count t1.data ∧
      (2 * (t1.size + 1) ≤ float_round t1.data.length ∨ 2 ^ 63 ≤ t1.data.length) ∧
      (rehashed = false → t1 = t) := by
  have hWpos : (0 : Nat) < WORD := by unfold WORD; omega
  have hmax : (t.data.length ≤ 1 ∧ max t.data.length 1 = 1) ∨
      (1 ≤ t.data.length ∧ max t.data.length 1 = t.data.length) := by
    rcases Nat.le_total t.data.length 1 with h1 | h1
    · exact Or.inl ⟨h1, Nat.max_eq_right h1⟩
    · exact Or.inr ⟨h1, Nat.max_eq_left h1⟩
  unfold try_to_rehash
  by_cases hb : t.size < size_to_rehash t
  · rw [if_pos hb]
    unfold size_to_rehash at hb
    exact ⟨t, false, rfl, hcap, hchain, rfl, rfl, hsize, Or.inl (by omega), fun _ => rfl⟩
  · rw [if_neg hb]
    set P := power_of_two_growth_policy (max t.data.length 1) with hP
    have hPval : P = max t.data.length 1 * 2 % WORD := rfl
    by_cases hg : t.data.length < P
    · obtain ⟨t2, hreh, hlen2, hchain2, hms2, hsize2⟩ := rehash_spec hg hchain
      have hcap2 : t.data.length < 2 ^ 64 := hcap
      have hnowrap : max t.data.length 1 * 2 < WORD := by
        show max t.data.length 1 * 2 < 2 ^ 64
        by_contra hwrap
        have h2 : P = max t.data.length 1 * 2 - 2 ^ 64 := by
          rw [hPval]
          show max t.data.length 1 * 2 % 2 ^ 64 = max t.data.length 1 * 2 - 2 ^ 64
          rw [Nat.mod_eq_sub_mod (by omega)]
          apply Nat.mod_eq_of_lt
          rcases hmax with ⟨h3, h4⟩ | ⟨h3, h4⟩ <;> (rw [h4]; omega)
        rcases hmax with ⟨h3, h4⟩ | ⟨h3, h4⟩ <;> (rw [h4] at h2; omega)
      have hPeq : P = max t.data.length 1 * 2 := by
        rw [hPval, Nat.mod_eq_of_lt hnowrap]
      refine ⟨t2, true, ?_, ?_, hchain2, hms2, ?_, ?_, ?_, fun hh => Bool.noConfusion hh⟩
      · rw [hreh]
      · rw [hlen2, hPval]
        exact Nat.mod_lt _ hWpos
      · rw [hsize2, hsize]
      · rw [hsize2]
        have := card_msNodes t2.data
        rw [hms2, card_msNodes] at this
        omega
      · left
        rw [hsize2, ← hsize, hlen2, hPeq]
        have hC63 : t.data.length < 2 ^ 63 := by
          have hnw2 : max t.data.length 1 * 2 < 2 ^ 64 := hnowrap
          rcases hmax with ⟨h3, h4⟩ | ⟨h3, h4⟩ <;> (rw [h4] at hnw2; omega)
        have hdbl : float_round (max t.data.length 1 * 2)
            = 2 * float_round (max t.data.length 1) := by
          rw [Nat.mul_comm]
          exact float_round_double _
        rw [hdbl]
        rcases hlf with h5 | h5
        · rcases hmax with ⟨h3, h4⟩ | ⟨h3, h4⟩
          · rw [h4, float_round_small (by omega)]
            have h6 : float_round t.data.length = t.data.length :=
              float_round_small (by omega)
            rw [h6] at h5
            omega
          · rw [h4]
            have h7 : 1 ≤ float_round t.data.length := float_round_pos h3
            omega
        · omega
    · have hreh : rehash t P = some t := by
        unfold rehash
        rw [if_neg hg]
      rw [hreh]
      have hsat : 2 ^ 63 ≤ t.data.length := by
        have hPle : P ≤ t.data.length := by omega
        by_cases hw : max t.data.length 1 * 2 < WORD
        · have : P = max t.data.length 1 * 2 := by rw [hPval, Nat.mod_eq_of_lt hw]
          rcases hmax with ⟨h3, h4⟩ | ⟨h3, h4⟩ <;> (rw [h4] at this; omega)
        · rcases hmax with ⟨h3, h4⟩ | ⟨h3, h4⟩
          · rw [h4] at hw
            unfold WORD at hw
            omega
          · rw [h4] at hw
            unfold WORD at hw
            omega
      exact ⟨t, true, rfl, hcap, hchain, rfl, rfl, hsize, Or.inr hsat,
        fun hh => Bool.noConfusion hh⟩

end RobinHood

namespace RobinHood

variable {K V : Type}

theorem find_spot_loop_fst_lt [DecidableEq K] {ks : V → K} {buf : Buf V} {key : K} {h : Nat} :
    ∀ {fuel index distance : Nat}, 0 < buf.length → index < buf.length →
    (find_spot_loop ks buf key h fuel index distance).1 < buf.length := by
  intro fuel
  induction fuel with
  | zero => intro index distance _ hidx; exact hidx
  | succ f ih =>
    intro index distance hC hidx
    rw [find_spot_loop]
    by_cases hc1 : (nodeAt buf index).isEmpty = true ∨
        distance_to_ideal_bucket buf index < distance
    · rw [if_pos hc1]
      exact hidx
    · rw [if_neg hc1]
      by_cases hc2 : (nodeAt buf index).hash = h ∧ (nodeAt buf index).key? ks = some key
      · rw [if_pos hc2]
        exact hidx
      · rw [if_neg hc2]
        exact ih hC (next_index_lt hC index)

theorem find_spot_fst_lt [DecidableEq K] {ks : V → K} {buf : Buf V} {key : K} {h : Nat}
    (hC : 0 < buf.length) : (find_spot ks buf key h).1 < buf.length := by
  unfold find_spot
  rw [if_neg (Nat.pos_iff_ne_zero.1 hC)]
  exact find_spot_loop_fst_lt hC (hash_to_index_lt hC h)

theorem nodeAt_mem {buf : Buf V} {i : Nat} (hi : i < buf.length) : nodeAt buf i ∈ buf := by
  induction buf generalizing i with
  | nil => simp at hi
  | cons hd tl ih =>
    cases i with
    | zero => exact List.mem_cons_self hd tl
    | succ j =>
      rw [nodeAt_cons_succ]
      exact List.mem_cons_of_mem hd (ih (by simpa using hi))

theorem all_occupied_of_count_eq {buf : Buf V} (hfull : occupied_count buf = buf.length) :
    ∀ i, i < buf.length → (nodeAt buf i).isEmpty = false := by
  intro i hi
  unfold occupied_count at hfull
  have h1 := List.countP_eq_length.1 hfull (nodeAt buf i) (nodeAt_mem hi)
  simpa using h1

/-- Placement dichotomy of `_insert`'s new-entry path: on a full buffer
the displacement loop diverges (`none`); otherwise it succeeds, preserves
the chain invariant and adds exactly the new node. -/
theorem insert_place_spec [DecidableEq K] {ks : V → K} {buf : Buf V} {k : K} {h j1 : Nat}
    {v : V} (hcapW : buf.length ≤ WORD) (hchain : ChainInv buf)
    (hfind : find_spot ks buf k h = (j1, false)) :
    (insertion_helper buf (.occupied h v) j1 = none ∧ occupied_count buf = buf.length) ∨
    (∃ buf2, insertion_helper buf (.occupied h v) j1 = some buf2 ∧
      buf2.length = buf.length ∧ ChainInv buf2 ∧
      msNodes buf2 = msNodes buf + {(h, v)}) := by
  by_cases hfull : occupied_count buf < buf.length
  · right
    have hC : 0 < buf.length := Nat.lt_of_le_of_lt (Nat.zero_le _) hfull
    obtain ⟨e0, he0, hee⟩ := exists_empty_of_count_lt hfull
    have hble : hash_to_index buf h ≤ buf.length := hash_to_index_le h
    have hm : cdist buf.length (hash_to_index buf h) e0 < buf.length := cdist_lt hC _ _
    have hempty : (nodeAt buf ((hash_to_index buf h
        + cdist buf.length (hash_to_index buf h) e0) % buf.length)).isEmpty = true := by
      rw [add_cdist hble he0]
      exact hee
    obtain ⟨e, hem, hje, hpref, hstop⟩ := find_spot_not_found hC hm hempty hfind
    have hnd : (Node.occupied h v : Node V).isEmpty = false := rfl
    obtain ⟨buf2, hb2, hb2len, hb2chain, hb2ms⟩ :=
      insertion_helper_spot_spec hC hcapW hnd hchain hje hem hm hempty hstop hpref
    exact ⟨buf2, hb2, hb2len, hb2chain, by rw [hb2ms]; rfl⟩
  · left
    have hfulleq : occupied_count buf = buf.length :=
      Nat.le_antisymm (occupied_count_le buf) (Nat.le_of_not_lt hfull)
    refine ⟨?_, hfulleq⟩
    rcases Nat.eq_zero_or_pos buf.length with hC0 | hC0
    · show insertion_helper_loop buf.length buf (.occupied h v) j1
        (subWrap j1 (hash_to_index buf (Node.occupied h v).hash)) = none
      rw [hC0]
      rfl
    · have hj1 : j1 < buf.length := by
        have h2 := @find_spot_fst_lt K V _ ks buf k h hC0
        rw [hfind] at h2
        exact h2
      exact insertion_helper_loop_none_of_full (all_occupied_of_count_eq hfulleq) rfl hj1

end RobinHood

namespace RobinHood

variable {K V : Type}

/-- Full specification of `_insert` on a well-formed table: the resulting
table is well-formed, it contains the inserted binding, the returned
boolean reports whether the key was already present (overwrite in place),
and the content and size change accordingly. -/
theorem insert_spec [DecidableEq K] {hf : K → Nat} {ks : V → K} {t t2 : HashTable V}
    {v : V} {i : Nat} {b : Bool} (hwf : WF hf ks t)
    (hres : insert hf ks t v = some (t2, i, b)) :
    WF hf ks t2 ∧ (hf (ks v), v) ∈ msNodes t2.data ∧
      (b = true ↔ present ks t.data (ks v)) ∧
      (b = false → msNodes t2.data = msNodes t.data + {(hf (ks v), v)} ∧
        t2.size = t.size + 1) ∧
      (b = true → t2.size = t.size) := by
  simp only [RobinHood.insert] at hres
  rcases hsv : find_spot ks t.data (ks v) (hf (ks v)) with ⟨j, found⟩
  rw [hsv] at hres
  cases found with
  | true =>
    have hres2 : some ((⟨t.data.set j (.occupied (hf (ks v)) v), t.size⟩ : HashTable V),
        j, true) = some (t2, i, b) := hres
    simp only [Option.some_inj, Prod.mk.injEq] at hres2
    obtain ⟨ht2, hi, hb⟩ := hres2
    subst ht2
    subst hb
    obtain ⟨hj, vold, hold, hkey⟩ := find_spot_found hsv
    have hpres : present ks t.data (ks v) := present_of_find_spot_found hsv
    have hms := msNodes_set (Node.occupied (hf (ks v)) v) hj
    rw [hold] at hms
    simp only [Node.pairMS] at hms
    refine ⟨?_, ?_, iff_of_true rfl hpres, fun hh => Bool.noConfusion hh, fun _ => rfl⟩
    · refine ⟨?_, ?_, ?_, ?_, ?_, ?_⟩
      · show (t.data.set j (.occupied (hf (ks v)) v)).length < WORD
        rw [length_set]
        exact hwf.cap_lt
      · show t.size = occupied_count (t.data.set j (.occupied (hf (ks v)) v))
        have h1 := congrArg Multiset.card hms
        simp only [Multiset.card_add, Multiset.card_singleton] at h1
        rw [card_msNodes, card_msNodes] at h1
        have h2 := hwf.size_eq
        omega
      · intro p hp
        have hp2 : p ∈ msNodes t.data + {(hf (ks v), v)} := by
          rw [← hms]
          exact Multiset.mem_add.2 (Or.inl hp)
        rcases Multiset.mem_add.1 hp2 with h2 | h2
        · exact hwf.hash_ok p h2
        · rw [Multiset.mem_singleton] at h2
          subst h2
          rfl
      · show (msKeys ks (t.data.set j (.occupied (hf (ks v)) v))).Nodup
        have h1 := congrArg (Multiset.map fun p => ks p.2) hms
        simp only [Multiset.map_add, Multiset.map_singleton] at h1
        rw [hkey] at h1
        have h2 : msKeys ks (t.data.set j (.occupied (hf (ks v)) v)) = msKeys ks t.data := by
          unfold msKeys
          exact add_right_cancel h1
        rw [h2]
        exact hwf.keys_nodup
      · exact chain_set_samehash hj hold hwf.chain
      · show 2 * t.size ≤ float_round (t.data.set j (.occupied (hf (ks v)) v)).length ∨
          2 ^ 63 ≤ (t.data.set j (.occupied (hf (ks v)) v)).length
        rw [length_set]
        exact hwf.lf
    · refine mem_msNodes.2 ⟨j, ?_, ?_⟩
      · rw [length_set]
        exact hj
      · exact nodeAt_set_self _ hj
  | false =>
    obtain ⟨t1, rehashed, htry, hcap1, hchain1, hms1, hsz1, hsz1occ, hlf1, hreh_false⟩ :=
      try_to_rehash_spec hwf.size_eq hwf.chain hwf.cap_lt hwf.lf
    rw [htry] at hres
    have hres2 : (match insertion_helper t1.data (Node.occupied (hf (ks v)) v)
          (if rehashed then find_spot ks t1.data (ks v) (hf (ks v)) else (j, false)).1 with
        | none => none
        | some data2 => some ((⟨data2, t1.size + 1⟩ : HashTable V),
            (if rehashed then find_spot ks t1.data (ks v) (hf (ks v)) else (j, false)).1,
            false)) = some (t2, i, b) := hres
    have habs : ¬ present ks t.data (ks v) :=
      find_spot_false_not_present hwf.chain hwf.keys_nodup hwf.hash_ok hsv
    have habs1 : ¬ present ks t1.data (ks v) := by
      intro hp
      apply habs
      rw [← mem_msKeys_iff] at hp ⊢
      unfold msKeys at hp ⊢
      rw [hms1] at hp
      exact hp
    have hfind1 : ∃ j1, (if rehashed then find_spot ks t1.data (ks v) (hf (ks v))
        else (j, false)).1 = j1 ∧ find_spot ks t1.data (ks v) (hf (ks v)) = (j1, false) := by
      cases rehashed with
      | false =>
        rw [hreh_false rfl]
        exact ⟨j, rfl, hsv⟩
      | true =>
        rcases hsv1 : find_spot ks t1.data (ks v) (hf (ks v)) with ⟨j1, f1⟩
        cases f1 with
        | true => exact absurd (present_of_find_spot_found hsv1) habs1
        | false => exact ⟨j1, rfl, rfl⟩
    obtain ⟨j1, hs1j, hfind1⟩ := hfind1
    rw [hs1j] at hres2
    rcases insert_place_spec (Nat.le_of_lt hcap1) hchain1 hfind1 with
      ⟨hnone, hfull⟩ | ⟨buf2, hsome, hb2len, hb2chain, hb2ms⟩
    · rw [hnone] at hres2
      exact Option.noConfusion hres2
    · rw [hsome] at hres2
      have hres3 : some ((⟨buf2, t1.size + 1⟩ : HashTable V), j1, false)
          = some (t2, i, b) := hres2
      simp only [Option.some_inj, Prod.mk.injEq] at hres3
      obtain ⟨ht2, hi, hb⟩ := hres3
      subst ht2
      subst hb
      have hms2 : msNodes buf2 = msNodes t.data + {(hf (ks v), v)} := by
        rw [hb2ms, hms1]
      refine ⟨?_, ?_, iff_of_false (by simp) habs, ?_, fun hh => Bool.noConfusion hh⟩
      · refine ⟨?_, ?_, ?_, ?_, ?_, ?_⟩
        · show buf2.length < WORD
          rw [hb2len]
          exact hcap1
        · show t1.size + 1 = occupied_count buf2
          have hcard := congrArg Multiset.card hms2
          rw [Multiset.card_add, Multiset.card_singleton, card_msNodes, card_msNodes] at hcard
          have h2 := hwf.size_eq
          omega
        · intro p hp
          rw [hms2] at hp
          rcases Multiset.mem_add.1 hp with h2 | h2
          · exact hwf.hash_ok p h2
          · rw [Multiset.mem_singleton] at h2
            subst h2
            rfl
        · show (msKeys ks buf2).Nodup
          have hkeys2 : msKeys ks buf2 = msKeys ks t.data + {ks v} := by
            unfold msKeys
            rw [hms2, Multiset.map_add, Multiset.map_singleton]
          rw [hkeys2, Multiset.nodup_add]
          refine ⟨hwf.keys_nodup, Multiset.nodup_singleton _, ?_⟩
          rw [Multiset.disjoint_left]
          intro a ha hb2
          rw [Multiset.mem_singleton] at hb2
          subst hb2
          exact habs (mem_msKeys_iff.1 ha)
        · exact hb2chain
        · show 2 * (t1.size + 1) ≤ float_round buf2.length ∨ 2 ^ 63 ≤ buf2.length
          rw [hb2len]
          exact hlf1
      · rw [show msNodes (⟨buf2, t1.size + 1⟩ : HashTable V).data = msNodes buf2 from rfl, hms2]
        exact Multiset.mem_add.2 (Or.inr (Multiset.mem_singleton_self _))
      · intro _
        refine ⟨hms2, ?_⟩
        show t1.size + 1 = t.size + 1
        rw [hsz1]

end RobinHood

namespace RobinHood

variable {K V : Type}

/-- Full specification of `_erase` on a well-formed table: the result is
well-formed; the returned count is `1` exactly when the key was present;
an absent key leaves the table untouched; a present key removes exactly
its entry and decrements the size. -/
theorem erase_spec [DecidableEq K] {hf : K → Nat} {ks : V → K} {t : HashTable V} {k : K}
    (hwf : WF hf ks t) :
    WF hf ks (erase hf ks t k).1 ∧
      ((erase hf ks t k).2 = 1 ↔ present ks t.data k) ∧
      (¬ present ks t.data k → erase hf ks t k = (t, 0)) ∧
      (present ks t.data k → ∃ v, ks v = k ∧
        msNodes (erase hf ks t k).1.data + {(hf k, v)} = msNodes t.data ∧
        (erase hf ks t k).1.size + 1 = t.size) := by
  rcases hsv : find_spot ks t.data k (hf k) with ⟨j, found⟩
  cases found with
  | false =>
    have he : erase hf ks t k = (t, 0) := by
      simp only [RobinHood.erase, hsv]
      rfl
    have habs : ¬ present ks t.data k :=
      find_spot_false_not_present hwf.chain hwf.keys_nodup hwf.hash_ok hsv
    rw [he]
    exact ⟨hwf, iff_of_false (by simp) habs, fun _ => rfl, fun hp => absurd hp habs⟩
  | true =>
    have he : erase hf ks t k = (⟨backward_shift t.data j, t.size - 1⟩, 1) := by
      simp only [RobinHood.erase, hsv]
      rfl
    obtain ⟨hj, vold, hold, hkey⟩ := find_spot_found hsv
    have hpres : present ks t.data k := present_of_find_spot_found hsv
    obtain ⟨hblen, hbchain, hbms⟩ := backward_shift_spec hwf.chain hj
    rw [hold] at hbms
    simp only [Node.pairMS] at hbms
    have hszpos : 1 ≤ t.size := by
      have hmem : (hf k, vold) ∈ msNodes t.data := mem_msNodes.2 ⟨j, hj, hold⟩
      have h1 : 0 < Multiset.card (msNodes t.data) :=
        Multiset.card_pos.2 (fun hz => by rw [hz] at hmem; simp at hmem)
      rw [card_msNodes] at h1
      rw [hwf.size_eq]
      omega
    have hcard := congrArg Multiset.card hbms
    rw [Multiset.card_add, Multiset.card_singleton, card_msNodes, card_msNodes] at hcard
    rw [he]
    refine ⟨?_, iff_of_true rfl hpres, fun hnp => absurd hpres hnp, fun _ => ?_⟩
    · refine ⟨?_, ?_, ?_, ?_, hbchain, ?_⟩
      · show (backward_shift t.data j).length < WORD
        rw [hblen]
        exact hwf.cap_lt
      · show t.size - 1 = occupied_count (backward_shift t.data j)
        have h2 := hwf.size_eq
        omega
      · intro p hp
        have hp2 : p ∈ msNodes t.data := by
          rw [← hbms]
          exact Multiset.mem_add.2 (Or.inl hp)
        exact hwf.hash_ok p hp2
      · show (msKeys ks (backward_shift t.data j)).Nodup
        have h1 := congrArg (Multiset.map fun p => ks p.2) hbms
        simp only [Multiset.map_add, Multiset.map_singleton] at h1
        have hle : msKeys ks (backward_shift t.data j) ≤ msKeys ks t.data := by
          unfold msKeys
          calc Multiset.map (fun p => ks p.2) (msNodes (backward_shift t.data j))
              ≤ Multiset.map (fun p => ks p.2) (msNodes (backward_shift t.data j))
                + {ks vold} := Multiset.le_add_right _ _
            _ = Multiset.map (fun p => ks p.2) (msNodes t.data) := h1
        exact Multiset.nodup_of_le hle hwf.keys_nodup
      · show 2 * (t.size - 1) ≤ float_round (backward_shift t.data j).length ∨
          2 ^ 63 ≤ (backward_shift t.data j).length
        rw [hblen]
        rcases hwf.lf with h2 | h2
        · exact Or.inl (by omega)
        · exact Or.inr h2
    · exact ⟨vold, hkey, hbms, by show t.size - 1 + 1 = t.size; omega⟩

end RobinHood

namespace RobinHood

variable {K V : Type}

/-- A freshly constructed table is well-formed. -/
theorem mkTable_wf [DecidableEq K] (hf : K → Nat) (ks : V → K) {c : Nat} (hc : c < WORD) :
    WF hf ks (mkTable V c) := by
  refine ⟨?_, ?_, ?_, ?_, ?_, ?_⟩
  · show (mkBuf V c).length < WORD
    rw [length_mkBuf]
    exact hc
  · show 0 = occupied_count (mkBuf V c)
    rw [occupied_count_mkBuf]
  · intro p hp
    rw [show msNodes (mkTable V c).data = msNodes (mkBuf V c) from rfl, msNodes_mkBuf] at hp
    simp at hp
  · show (msKeys ks (mkBuf V c)).Nodup
    unfold msKeys
    rw [msNodes_mkBuf]
    simp
  · exact chain_mkBuf c
  · exact Or.inl (by show 2 * 0 ≤ float_round (mkBuf V c).length; omega)

/-- Every reachable table state is well-formed. -/
theorem reach_wf [DecidableEq K] {hf : K → Nat} {ks : V → K} {t : HashTable V}
    (hr : Reach hf ks t) : WF hf ks t := by
  induction hr with
  | init c hc => exact mkTable_wf hf ks hc
  | insertStep v ht hstep ih => exact (insert_spec ih hstep).1
  | eraseStep key ht ih => exact (erase_spec ih).1

end RobinHood

namespace RobinHood

variable {K V : Type}

/-- On a well-formed table, the entry `(hf k, v)` with `ks v = k` is what
`find` locates and the returned iterator dereferences to `v`. -/
theorem findValue_of_mem [DecidableEq K] {hf : K → Nat} {ks : V → K} {t : HashTable V}
    {k : K} {v : V} (hwf : WF hf ks t) (hmem : (hf k, v) ∈ msNodes t.data)
    (hk : ks v = k) : findValue hf ks t k = some v := by
  obtain ⟨j, hj, hold⟩ := mem_msNodes.1 hmem
  have hfsp := find_spot_present_found hwf.chain hwf.keys_nodup hj hold
  rw [hk] at hfsp
  simp only [findValue, RobinHood.find, hfsp]
  show (match nodeAt t.data j with
    | Node.empty => none
    | Node.occupied h2 v2 => some v2) = some v
  rw [hold]

/-- `find` misses exactly the absent keys (easy direction: a hit witnesses
presence). -/
theorem find_none_of_not_present [DecidableEq K] {hf : K → Nat} {ks : V → K}
    {t : HashTable V} {k : K} (habs : ¬ present ks t.data k) :
    find hf ks t k = none := by
  rcases hsv : find_spot ks t.data k (hf k) with ⟨j, found⟩
  cases found with
  | true => exact absurd (present_of_find_spot_found hsv) habs
  | false =>
    simp only [RobinHood.find, hsv]
    rfl

/-- Erasing a present key of a well-formed table removes the key: it is
no longer present afterwards. -/
theorem erase_removes_key [DecidableEq K] {hf : K → Nat} {ks : V → K} {t : HashTable V}
    {k : K} (hwf : WF hf ks t) (hp : present ks t.data k) :
    ¬ present ks ((erase hf ks t k).1).data k := by
  obtain ⟨vold, hkv, hbms, _⟩ := (erase_spec hwf).2.2.2 hp
  intro hp3
  have hk3 : k ∈ msKeys ks ((erase hf ks t k).1).data := mem_msKeys_iff.2 hp3
  have h1 := congrArg (Multiset.map fun p => ks p.2) hbms
  simp only [Multiset.map_add, Multiset.map_singleton] at h1
  rw [hkv] at h1
  have hcnt := congrArg (Multiset.count k) h1
  rw [Multiset.count_add, Multiset.count_singleton, if_pos rfl] at hcnt
  have hle := Multiset.nodup_iff_count_le_one.1 hwf.keys_nodup k
  unfold msKeys at hk3 hle
  have hpos := Multiset.count_pos.2 hk3
  omega

end RobinHood

namespace RobinHood

variable {K V : Type}

/-- C1: on any reachable table, `insert(k, v)` followed by `find(k)`
returns an iterator dereferencing to the stored value `v` (not `end()`),
and after `erase(k)` removes that entry, `find(k)` returns the end
iterator (not found). -/
theorem C1_insert_find_erase_roundtrip [DecidableEq K] {hf : K → Nat} {ks : V → K}
    {t t2 : HashTable V} {v : V} {i : Nat} {b : Bool}
    (hr : Reach hf ks t) (hins : insert hf ks t v = some (t2, i, b)) :
    findValue hf ks t2 (ks v) = some v ∧
      find hf ks ((erase hf ks t2 (ks v)).1) (ks v) = none := by
  have hwf := reach_wf hr
  obtain ⟨hwf2, hmem, -, -, -⟩ := insert_spec hwf hins
  refine ⟨findValue_of_mem hwf2 hmem rfl, ?_⟩
  have hpres : present ks t2.data (ks v) :=
    mem_msKeys_iff.1 (Multiset.mem_map.2 ⟨(hf (ks v), v), hmem, rfl⟩)
  exact find_none_of_not_present (erase_removes_key hwf2 hpres)

/-- C2: in every reachable table state, for every occupied slot `i`,
every slot on the forward circular walk from the slot's ideal bucket
(`hash mod C`) up to `i` is occupied — there is no intervening empty
slot — and the walk of length `distance_to_ideal_bucket` ends exactly
at `i`. -/
theorem C2_chain_contiguity [DecidableEq K] {hf : K → Nat} {ks : V → K} {t : HashTable V}
    (hr : Reach hf ks t) {i : Nat} (hi : i < t.data.length)
    (hocc : (nodeAt t.data i).isEmpty = false) :
    (∀ u, u ≤ distance_to_ideal_bucket t.data i →
      (nodeAt t.data ((hash_to_index t.data (nodeAt t.data i).hash + u)
        % t.data.length)).isEmpty = false) ∧
    (hash_to_index t.data (nodeAt t.data i).hash
      + distance_to_ideal_bucket t.data i) % t.data.length = i :=
  ⟨fun u hu => (chain_walk (reach_wf hr).chain hi hocc u hu).1, dist_spec hi⟩

/-- C3: in every reachable table state, `size()` equals the number of
occupied slots found by a full scan of the buffer, and this still holds
immediately after erasing any key (no tombstones: the model's slots are
only ever empty or occupied). -/
theorem C3_size_equals_scan [DecidableEq K] {hf : K → Nat} {ks : V → K} {t : HashTable V}
    (hr : Reach hf ks t) :
    t.size = occupied_count t.data ∧
      ∀ k, ((erase hf ks t k).1).size = occupied_count ((erase hf ks t k).1).data :=
  ⟨(reach_wf hr).size_eq, fun k => ((erase_spec (reach_wf hr)).1).size_eq⟩

/-- C4 (amended): after any insert that added a new entry (boolean
`false`) to a reachable table whose resulting capacity is below `2^63`
(beyond which the doubling policy wraps and growth is disabled), the
size respects the threshold the code actually computes — in `float`
arithmetic: `2 · size ≤ float_round capacity`, and therefore
`2 · size ≤ capacity + capacity / 2^24`.  The exact ratio `size/capacity`
can exceed the nominal `0.5` by up to one part in `2^24` at
non-float-exact capacities, and does (see the counterexample). -/
theorem C4_load_factor_float_bound [DecidableEq K] {hf : K → Nat} {ks : V → K}
    {t t2 : HashTable V} {v : V} {i : Nat}
    (hr : Reach hf ks t) (hins : insert hf ks t v = some (t2, i, false))
    (hcap : t2.data.length < 2 ^ 63) :
    2 * t2.size ≤ float_round t2.data.length ∧
      2 * t2.size ≤ t2.data.length + t2.data.length / 2 ^ 24 := by
  obtain ⟨hwf2, -, -, -, -⟩ := insert_spec (reach_wf hr) hins
  rcases hwf2.lf with h | h
  · exact ⟨h, le_trans h (float_round_le _)⟩
  · omega

/-- C5: the claim that `unordered_map::at` on an absent key reports a
"key not found" condition is refuted by the code: `at` is
`return hash_table_.find(key)->second;` with no absence check, so on a
miss it dereferences the end iterator — the position one past the buffer
(here: key `2` absent, `find` misses, yet `at`'s access lands on index
`4 = capacity`). -/
theorem C5_at_absent_dereferences_end :
    find (fun k : Nat => k) (fun v : Nat => v)
        (⟨[.empty, .occupied 1 1, .empty, .empty], 1⟩ : HashTable Nat) 2 = none ∧
      map_at_access_index (fun k : Nat => k) (fun v : Nat => v)
        (⟨[.empty, .occupied 1 1, .empty, .empty], 1⟩ : HashTable Nat) 2
        = (⟨[.empty, .occupied 1 1, .empty, .empty], 1⟩ : HashTable Nat).data.length := by
  decide

/-- C6: erasing a key that is not present leaves the entire table state
unchanged (same buffer, same size) and returns `0` — on every table
state whatsoever. -/
theorem C6_erase_absent_noop [DecidableEq K] {hf : K → Nat} {ks : V → K}
    {t : HashTable V} {k : K} (habs : ¬ present ks t.data k) :
    erase hf ks t k = (t, 0) := by
  rcases hsv : find_spot ks t.data k (hf k) with ⟨j, found⟩
  cases found with
  | true => exact absurd (present_of_find_spot_found hsv) habs
  | false =>
    simp only [RobinHood.erase, hsv]
    rfl

/-- C7 counterexample: the growth policy does not return
`max(current, 1) × 2` — at `current = 0` the source computes `0 * 2 = 0`,
which is neither `2` nor strictly greater than `current`. -/
theorem C7_policy_zero_counterexample :
    power_of_two_growth_policy 0 = 0 ∧
      power_of_two_growth_policy 0 ≠ max 0 1 * 2 ∧
      ¬ 0 < power_of_two_growth_policy 0 := by
  refine ⟨by decide, by decide, by decide⟩

/-- C7 (amended): the policy returns `current * 2` in wrapping `size_t`
arithmetic; only for `0 < current < 2^63` does this equal
`max(current, 1) × 2` and strictly exceed `current` (callers compensate
by passing `max(capacity, 1)`). -/
theorem C7_policy_amended (current : Nat) :
    power_of_two_growth_policy current = current * 2 % WORD ∧
      (0 < current → current < 2 ^ 63 →
        power_of_two_growth_policy current = max current 1 * 2 ∧
          current < power_of_two_growth_policy current) := by
  refine ⟨rfl, fun h0 h63 => ?_⟩
  have hWeq : WORD = 2 ^ 64 := rfl
  have hlt : current * 2 < WORD := by
    rw [hWeq]
    omega
  have hmod : power_of_two_growth_policy current = current * 2 := by
    show current * 2 % WORD = current * 2
    exact Nat.mod_eq_of_lt hlt
  constructor
  · rw [hmod, Nat.max_eq_left h0]
  · rw [hmod]
    omega

/-- C8: inserting into a reachable zero-capacity table first probes the
empty buffer (`find_spot` reports not-found at index `0`), then rehashes
to the growth policy's first nonzero capacity `2` and places the entry,
which `find` locates afterwards. -/
theorem C8_zero_capacity_insert_grows [DecidableEq K] {hf : K → Nat} {ks : V → K}
    {t : HashTable V} (hr : Reach hf ks t) (hlen : t.data.length = 0) (v : V) :
    find_spot ks t.data (ks v) (hf (ks v)) = (0, false) ∧
    ∃ t2 j, insert hf ks t v = some (t2, j, false) ∧ t2.data.length = 2 ∧
      findValue hf ks t2 (ks v) = some v := by
  have hwf := reach_wf hr
  rcases t with ⟨d, s⟩
  have hd : d = [] := List.length_eq_zero.1 hlen
  subst hd
  have hs : s = 0 := hwf.size_eq
  subst hs
  refine ⟨rfl, ?_⟩
  have htry : try_to_rehash (⟨[], 0⟩ : HashTable V) = some (⟨mkBuf V 2, 0⟩, true) := by
    unfold try_to_rehash
    rw [if_neg (by simp [size_to_rehash, float_round])]
    have hp : power_of_two_growth_policy (max (List.length (([] : Buf V))) 1) = 2 := by
      simp [power_of_two_growth_policy, WORD]
    rw [hp]
    rfl
  have hchain1 : ChainInv (mkBuf V 2) := chain_mkBuf 2
  have hlen1 : (mkBuf V 2).length = 2 := length_mkBuf 2
  have habs1 : ¬ present ks (mkBuf V 2) (ks v) := by
    intro hp
    have h1 := mem_msKeys_iff.2 hp
    unfold msKeys at h1
    rw [msNodes_mkBuf] at h1
    simp at h1
  obtain ⟨j1, hfind1⟩ : ∃ j1, find_spot ks (mkBuf V 2) (ks v) (hf (ks v)) = (j1, false) := by
    rcases hsv1 : find_spot ks (mkBuf V 2) (ks v) (hf (ks v)) with ⟨j1, f1⟩
    cases f1 with
    | true => exact absurd (present_of_find_spot_found hsv1) habs1
    | false => exact ⟨j1, rfl⟩
  have hcapW : (mkBuf V 2).length ≤ WORD := by
    rw [hlen1]
    unfold WORD
    omega
  rcases @insert_place_spec K V _ ks (mkBuf V 2) (ks v) (hf (ks v)) j1 v hcapW hchain1 hfind1 with
    ⟨-, hfull⟩ | ⟨buf2, hsome, hb2len, hb2chain, hb2ms⟩
  · rw [occupied_count_mkBuf, hlen1] at hfull
    omega
  · have hsv0 : find_spot ks ([] : Buf V) (ks v) (hf (ks v)) = (0, false) := rfl
    have hins : insert hf ks (⟨[], 0⟩ : HashTable V) v = some (⟨buf2, 1⟩, j1, false) := by
      simp [RobinHood.insert, hsv0, htry, hfind1, hsome]
    obtain ⟨hwf2, hmem, -, -, -⟩ := insert_spec hwf hins
    refine ⟨⟨buf2, 1⟩, j1, hins, ?_, findValue_of_mem hwf2 hmem rfl⟩
    show buf2.length = 2
    rw [hb2len, hlen1]

/-- C9: the claim that the `begin()` scan never dereferences the
one-past-last position is refuted by the code: the loop
`while (current->empty() && current != last) ++current;` evaluates
`current->empty()` before the bounds check, so on a buffer with no
occupied slot (here capacity `4`, all empty) the scan stops at position
`4 = capacity` and that out-of-range position is among the dereferenced
indices. -/
theorem C9_begin_reads_one_past_end :
    (begin_scan (mkTable Nat 4).data).1 = (mkTable Nat 4).data.length ∧
      (mkTable Nat 4).data.length ∈ (begin_scan (mkTable Nat 4).data).2 := by
  decide

/-- C10: for every insert on a reachable table, the boolean of the
returned pair is `true` exactly when the key was already present before
the call (in-place overwrite), and `false` when a new entry was placed —
the inverse of the `std::unordered_map` convention. -/
theorem C10_insert_bool_inverted [DecidableEq K] {hf : K → Nat} {ks : V → K}
    {t t2 : HashTable V} {v : V} {i : Nat} {b : Bool}
    (hr : Reach hf ks t) (hins : insert hf ks t v = some (t2, i, b)) :
    b = true ↔ present ks t.data (ks v) :=
  (insert_spec (reach_wf hr) hins).2.2.1

end RobinHood

namespace RobinHood

/-- Concrete run of the C1 round trip: insert `5` into an empty
capacity-4 table, find it, erase it, miss it. -/
theorem C1_insert_find_erase_roundtrip_witness :
    insert (fun k : Nat => k) (fun v : Nat => v) (mkTable Nat 4) 5
        = some (⟨[.empty, .occupied 5 5, .empty, .empty], 1⟩, 1, false) ∧
      findValue (fun k : Nat => k) (fun v : Nat => v)
        (⟨[.empty, .occupied 5 5, .empty, .empty], 1⟩ : HashTable Nat) 5 = some 5 ∧
      find (fun k : Nat => k) (fun v : Nat => v)
        ((erase (fun k : Nat => k) (fun v : Nat => v)
          (⟨[.empty, .occupied 5 5, .empty, .empty], 1⟩ : HashTable Nat) 5).1) 5 = none := by
  have hins : insert (fun k : Nat => k) (fun v : Nat => v) (mkTable Nat 4) 5
      = some (⟨[.empty, .occupied 5 5, .empty, .empty], 1⟩, 1, false) := by decide
  have h := C1_insert_find_erase_roundtrip (Reach.init 4 (by decide)) hins
  exact ⟨hins, h.1, h.2⟩

/-- Concrete instance of the C2 invariant on a reachable one-entry
table: slot 1 is occupied, the walk from its ideal bucket is occupied
and ends at 1. -/
theorem C2_chain_contiguity_witness :
    Reach (fun k : Nat => k) (fun v : Nat => v)
        (⟨[.empty, .occupied 5 5, .empty, .empty], 1⟩ : HashTable Nat) ∧
      1 < (⟨[.empty, .occupied 5 5, .empty, .empty], 1⟩ : HashTable Nat).data.length ∧
      (nodeAt (⟨[.empty, .occupied 5 5, .empty, .empty], 1⟩ : HashTable Nat).data 1).isEmpty
        = false ∧
      (nodeAt (⟨[.empty, .occupied 5 5, .empty, .empty], 1⟩ : HashTable Nat).data
        ((hash_to_index (⟨[.empty, .occupied 5 5, .empty, .empty], 1⟩ : HashTable Nat).data
            (nodeAt (⟨[.empty, .occupied 5 5, .empty, .empty], 1⟩ : HashTable Nat).data 1).hash
          + 0)
          % (⟨[.empty, .occupied 5 5, .empty, .empty], 1⟩ : HashTable Nat).data.length)).isEmpty
        = false ∧
      (hash_to_index (⟨[.empty, .occupied 5 5, .empty, .empty], 1⟩ : HashTable Nat).data
          (nodeAt (⟨[.empty, .occupied 5 5, .empty, .empty], 1⟩ : HashTable Nat).data 1).hash
        + distance_to_ideal_bucket
            (⟨[.empty, .occupied 5 5, .empty, .empty], 1⟩ : HashTable Nat).data 1)
        % (⟨[.empty, .occupied 5 5, .empty, .empty], 1⟩ : HashTable Nat).data.length = 1 := by
  have hins : insert (fun k : Nat => k) (fun v : Nat => v) (mkTable Nat 4) 5
      = some (⟨[.empty, .occupied 5 5, .empty, .empty], 1⟩, 1, false) := by decide
  have hr : Reach (fun k : Nat => k) (fun v : Nat => v)
      (⟨[.empty, .occupied 5 5, .empty, .empty], 1⟩ : HashTable Nat) :=
    Reach.insertStep 5 (Reach.init 4 (by decide)) hins
  have h := @C2_chain_contiguity Nat Nat _ (fun k : Nat => k) (fun v : Nat => v)
    (⟨[.empty, .occupied 5 5, .empty, .empty], 1⟩ : HashTable Nat) hr 1 (by decide) (by decide)
  exact ⟨hr, by decide, by decide, h.1 0 (by decide), h.2⟩

/-- Concrete instance of C3: on a reachable one-entry table, `size_`
matches the scan, before and after an erase. -/
theorem C3_size_equals_scan_witness :
    Reach (fun k : Nat => k) (fun v : Nat => v)
        (⟨[.empty, .occupied 5 5, .empty, .empty], 1⟩ : HashTable Nat) ∧
      (⟨[.empty, .occupied 5 5, .empty, .empty], 1⟩ : HashTable Nat).size
        = occupied_count (⟨[.empty, .occupied 5 5, .empty, .empty], 1⟩ : HashTable Nat).data ∧
      ((erase (fun k : Nat => k) (fun v : Nat => v)
          (⟨[.empty, .occupied 5 5, .empty, .empty], 1⟩ : HashTable Nat) 5).1).size
        = occupied_count ((erase (fun k : Nat => k) (fun v : Nat => v)
          (⟨[.empty, .occupied 5 5, .empty, .empty], 1⟩ : HashTable Nat) 5).1).data := by
  have hins : insert (fun k : Nat => k) (fun v : Nat => v) (mkTable Nat 4) 5
      = some (⟨[.empty, .occupied 5 5, .empty, .empty], 1⟩, 1, false) := by decide
  have hr : Reach (fun k : Nat => k) (fun v : Nat => v)
      (⟨[.empty, .occupied 5 5, .empty, .empty], 1⟩ : HashTable Nat) :=
    Reach.insertStep 5 (Reach.init 4 (by decide)) hins
  have h := C3_size_equals_scan hr
  exact ⟨hr, h.1, h.2 5⟩

/-- Concrete instance of the amended C4: the fresh insert of `5` into
the empty capacity-4 table keeps `2 · size` within the float-computed
bound. -/
theorem C4_load_factor_float_bound_witness :
    Reach (fun k : Nat => k) (fun v : Nat => v) (mkTable Nat 4) ∧
      insert (fun k : Nat => k) (fun v : Nat => v) (mkTable Nat 4) 5
        = some (⟨[.empty, .occupied 5 5, .empty, .empty], 1⟩, 1, false) ∧
      (⟨[.empty, .occupied 5 5, .empty, .empty], 1⟩ : HashTable Nat).data.length < 2 ^ 63 ∧
      2 * (⟨[.empty, .occupied 5 5, .empty, .empty], 1⟩ : HashTable Nat).size
        ≤ float_round (⟨[.empty, .occupied 5 5, .empty, .empty], 1⟩ : HashTable Nat).data.length ∧
      2 * (⟨[.empty, .occupied 5 5, .empty, .empty], 1⟩ : HashTable Nat).size
        ≤ (⟨[.empty, .occupied 5 5, .empty, .empty], 1⟩ : HashTable Nat).data.length
          + (⟨[.empty, .occupied 5 5, .empty, .empty], 1⟩ : HashTable Nat).data.length
            / 2 ^ 24 := by
  have hr : Reach (fun k : Nat => k) (fun v : Nat => v) (mkTable Nat 4) :=
    Reach.init 4 (by decide)
  have hins : insert (fun k : Nat => k) (fun v : Nat => v) (mkTable Nat 4) 5
      = some (⟨[.empty, .occupied 5 5, .empty, .empty], 1⟩, 1, false) := by decide
  have h := C4_load_factor_float_bound hr hins (by decide)
  exact ⟨hr, hins, by decide, h.1, h.2⟩

/-- Concrete instance of C6: erasing the absent key `2` from a one-entry
table is the identity and returns `0`. -/
theorem C6_erase_absent_noop_witness :
    ¬ present (fun v : Nat => v)
        (⟨[.empty, .occupied 1 1, .empty, .empty], 1⟩ : HashTable Nat).data 2 ∧
      erase (fun k : Nat => k) (fun v : Nat => v)
        (⟨[.empty, .occupied 1 1, .empty, .empty], 1⟩ : HashTable Nat) 2
        = (⟨[.empty, .occupied 1 1, .empty, .empty], 1⟩, 0) := by
  have habs : ¬ present (fun v : Nat => v)
      (⟨[.empty, .occupied 1 1, .empty, .empty], 1⟩ : HashTable Nat).data 2 := by
    intro hp
    have h1 := mem_msKeys_iff.2 hp
    exact absurd h1 (by decide)
  exact ⟨habs, C6_erase_absent_noop habs⟩

/-- Concrete instance of the amended C7 at `current = 4`: the policy
doubles. -/
theorem C7_policy_amended_witness :
    0 < 4 ∧ 4 < 2 ^ 63 ∧ power_of_two_growth_policy 4 = max 4 1 * 2 ∧
      4 < power_of_two_growth_policy 4 :=
  ⟨by decide, by decide, ((C7_policy_amended 4).2 (by decide) (by decide)).1,
    ((C7_policy_amended 4).2 (by decide) (by decide)).2⟩

/-- Concrete run of C8: inserting `5` into the default zero-capacity
table grows the buffer to capacity `2` and the entry is findable. -/
theorem C8_zero_capacity_insert_grows_witness :
    Reach (fun k : Nat => k) (fun v : Nat => v) (mkTable Nat 0) ∧
      (mkTable Nat 0).data.length = 0 ∧
      find_spot (fun v : Nat => v) (mkTable Nat 0).data 5 5 = (0, false) ∧
      ∃ t2 j, insert (fun k : Nat => k) (fun v : Nat => v) (mkTable Nat 0) 5
          = some (t2, j, false) ∧ t2.data.length = 2 ∧
        findValue (fun k : Nat => k) (fun v : Nat => v) t2 5 = some 5 := by
  have hr : Reach (fun k : Nat => k) (fun v : Nat => v) (mkTable Nat 0) :=
    Reach.init 0 (by decide)
  have h := C8_zero_capacity_insert_grows hr rfl 5
  exact ⟨hr, rfl, h.1, h.2⟩

/-- Concrete instance of C10: the fresh insert of `5` returns `false`,
matching the absence of the key beforehand. -/
theorem C10_insert_bool_inverted_witness :
    Reach (fun k : Nat => k) (fun v : Nat => v) (mkTable Nat 4) ∧
      insert (fun k : Nat => k) (fun v : Nat => v) (mkTable Nat 4) 5
        = some (⟨[.empty, .occupied 5 5, .empty, .empty], 1⟩, 1, false) ∧
      ((false = true) ↔ present (fun v : Nat => v) (mkTable Nat 4).data 5) := by
  have hr : Reach (fun k : Nat => k) (fun v : Nat => v) (mkTable Nat 4) :=
    Reach.init 4 (by decide)
  have hins : insert (fun k : Nat => k) (fun v : Nat => v) (mkTable Nat 4) 5
      = some (⟨[.empty, .occupied 5 5, .empty, .empty], 1⟩, 1, false) := by decide
  exact ⟨hr, hins, C10_insert_bool_inverted hr hins⟩

end RobinHood

namespace RobinHood

variable {K V : Type}

/-- A fresh insert (absent key) into a well-formed, not-full table whose
size is below the rehash threshold succeeds without growing: capacity is
kept, size increments, and exactly the new binding is added. -/
theorem insert_fresh_total [DecidableEq K] {hf : K → Nat} {ks : V → K} {t : HashTable V}
    (hwf : WF hf ks t) (v : V)
    (habs : ¬ present ks t.data (ks v))
    (hnotfull : occupied_count t.data < t.data.length)
    (hnoreh : t.size < size_to_rehash t) :
    ∃ t2 i, insert hf ks t v = some (t2, i, false) ∧ t2.data.length = t.data.length ∧
      t2.size = t.size + 1 ∧ msNodes t2.data = msNodes t.data + {(hf (ks v), v)} := by
  have htry : try_to_rehash t = some (t, false) := by
    unfold try_to_rehash
    rw [if_pos hnoreh]
  obtain ⟨j, hsv⟩ : ∃ j, find_spot ks t.data (ks v) (hf (ks v)) = (j, false) := by
    rcases hsv0 : find_spot ks t.data (ks v) (hf (ks v)) with ⟨j, f⟩
    cases f with
    | true => exact absurd (present_of_find_spot_found hsv0) habs
    | false => exact ⟨j, rfl⟩
  rcases @insert_place_spec K V _ ks t.data (ks v) (hf (ks v)) j v
      (Nat.le_of_lt hwf.cap_lt) hwf.chain hsv with
    ⟨-, hfull⟩ | ⟨buf2, hsome, hb2len, hb2chain, hb2ms⟩
  · omega
  · have hins : insert hf ks t v = some (⟨buf2, t.size + 1⟩, j, false) := by
      simp [RobinHood.insert, hsv, htry, hsome]
    exact ⟨⟨buf2, t.size + 1⟩, j, hins, hb2len, rfl, hb2ms⟩

/-- `(float)16777219` rounds up to `16777220`: the tie between the
representable neighbours `16777218` and `16777220` is broken towards the
even significand. -/
theorem float_round_16777219 : float_round 16777219 = 16777220 := by
  have hlog : Nat.log2 16777219 = 24 := by
    rw [Nat.log2_eq_log_two]
    exact Nat.log_eq_of_pow_le_of_lt_pow (by norm_num) (by norm_num)
  unfold float_round
  rw [if_neg (by norm_num), hlog]
  unfold round_at
  norm_num

/-- For every `n ≤ 8388610` there is a reachable table of capacity
`16777219 = 2^24 + 3` holding `n` entries (keys `0, …, n-1`): the float
threshold `⌊float_round 16777219 / 2⌋ = 8388610` admits them all without
a rehash. -/
theorem reach_big_state : ∀ n, n ≤ 8388610 → ∃ t : HashTable Nat,
    Reach (fun k : Nat => k) (fun v : Nat => v) t ∧
    t.data.length = 16777219 ∧ t.size = n ∧
    ∀ k ∈ msKeys (fun v : Nat => v) t.data, k < n := by
  intro n
  induction n with
  | zero =>
    intro h0
    refine ⟨mkTable Nat 16777219, Reach.init 16777219 (by decide),
      length_mkBuf _, rfl, ?_⟩
    intro k hk
    rw [show (mkTable Nat 16777219).data = mkBuf Nat 16777219 from rfl] at hk
    unfold msKeys at hk
    rw [msNodes_mkBuf] at hk
    simp at hk
  | succ m ih =>
    intro hle
    obtain ⟨t, hr, hlen, hsz, hkeys⟩ := ih (by omega)
    have hwf := reach_wf hr
    have habs : ¬ present (fun v : Nat => v) t.data m := by
      intro hp
      have h1 := mem_msKeys_iff.2 hp
      have h2 := hkeys m h1
      omega
    have hnotfull : occupied_count t.data < t.data.length := by
      rw [← hwf.size_eq, hsz, hlen]
      omega
    have hnoreh : t.size < size_to_rehash t := by
      unfold size_to_rehash
      rw [hlen, hsz]
      have he : float_round 16777219 / 2 = 8388610 := by
        rw [float_round_16777219]
      rw [he]
      omega
    obtain ⟨t2, i, hins, hlen2, hsz2, hms2⟩ :=
      insert_fresh_total hwf m habs hnotfull hnoreh
    refine ⟨t2, Reach.insertStep m hr hins, by rw [hlen2, hlen],
      by rw [hsz2, hsz], ?_⟩
    intro k hk
    unfold msKeys at hk
    rw [hms2, Multiset.map_add, Multiset.map_singleton] at hk
    rcases Multiset.mem_add.1 hk with h1 | h1
    · have h2 := hkeys k h1
      omega
    · rw [Multiset.mem_singleton] at h1
      have h2 : k = m := h1
      omega

/-- C4 counterexample: the original claim fails on the code.  The float
threshold admits a reachable table of capacity `16777219 = 2^24 + 3`
holding `8388609` entries, and the next fresh insert is accepted without
a rehash (`(float)16777219` rounds up to `16777220`, so `_size_to_rehash`
returns `8388610`), ending with `2 · size = 16777220 > capacity` at a
capacity far below `2^63`: the exact load factor exceeds
`max_load_factor = 0.5` immediately after an insert that added a new
entry. -/
theorem C4_exact_load_factor_counterexample :
    ∃ (t t2 : HashTable Nat) (i : Nat),
      Reach (fun k : Nat => k) (fun v : Nat => v) t ∧
      insert (fun k : Nat => k) (fun v : Nat => v) t 8388609 = some (t2, i, false) ∧
      t2.data.length < 2 ^ 63 ∧ 2 * t2.size > t2.data.length := by
  obtain ⟨t, hr, hlen, hsz, hkeys⟩ := reach_big_state 8388609 (by omega)
  have hwf := reach_wf hr
  have habs : ¬ present (fun v : Nat => v) t.data 8388609 := by
    intro hp
    have h1 := mem_msKeys_iff.2 hp
    have h2 := hkeys 8388609 h1
    omega
  have hnotfull : occupied_count t.data < t.data.length := by
    rw [← hwf.size_eq, hsz, hlen]
    omega
  have hnoreh : t.size < size_to_rehash t := by
    unfold size_to_rehash
    rw [hlen, hsz]
    have he : float_round 16777219 / 2 = 8388610 := by
      rw [float_round_16777219]
    rw [he]
    omega
  obtain ⟨t2, i, hins, hlen2, hsz2, -⟩ :=
    insert_fresh_total hwf 8388609 habs hnotfull hnoreh
  refine ⟨t, t2, i, hr, hins, ?_, ?_⟩
  · rw [hlen2, hlen]
    decide
  · rw [hsz2, hsz, hlen2, hlen]
    decide

end RobinHood
